import Mathlib

/-!
Verification of the MysoreScript runtime object model and tree-walking
interpreter.

The definitions below are a shallow embedding of the interpreter sources
(`interpreter.cc`, here `src/unnamed/part_000`, together with the AST
declarations in `src/ast.hh`).  Machine words (`Obj` in the source: `intptr_t`-sized
tagged values) are modelled as natural numbers, with wrap-around written
explicitly as `% 2 ^ 64` where the C++ code can overflow.  Pointer-typed
fields that are only compared against null are modelled as `Option`.
Heap addresses are produced by an allocator counter that always returns
fresh 8-byte-aligned non-null addresses.
-/

namespace MysoreScript

/- A MysoreScript object value (`Obj` in the source) is one machine word:
either a tagged small integer (low bit 1), a heap pointer (low three bits
000, non-null), or null (0).  It is modelled throughout as `Nat`, the
unsigned value of the 64-bit word. -/

/-- `needsGC` from the interpreter source: an object needs to be visible to
the GC iff it is a real pointer, i.e. non-null and with the low three tag
bits all zero (`(o != nullptr) && (((intptr_t)o & 7) == 0)`). -/
def needsGC (o : Nat) : Bool :=
  o != 0 && (o &&& 7) == 0

/-- Small-integer encoding: `(Obj)((value << 3) | 1)` (from
`Number::evaluateExpr` in `ast.hh`; `createSmallInteger` in the runtime does
the same).  The shift is on a 64-bit word, so the result wraps modulo
`2 ^ 64`; for `value * 8`, or-ing the low bit equals adding 1. -/
def createSmallInteger (value : Int) : Nat :=
  ((value * 8 + 1) % (2 ^ 64 : Int)).toNat

/-- `isInteger`: the low bit of the word is the small-integer tag (object
representation, §3 of the spec; used throughout the interpreter source). -/
def isInteger (o : Nat) : Bool :=
  (o &&& 1) == 1

/-- The signed (two's complement) reading of a 64-bit word. -/
def toSigned (o : Nat) : Int :=
  if o < 2 ^ 63 then (o : Int) else (o : Int) - 2 ^ 64

/-- Arithmetic right shift by 3 of a 64-bit word, as used by
`BinOp::evaluateExpr` (`((intptr_t)LHS) >> 3`): floor division of the
signed value by 8. -/
def asr3 (o : Nat) : Int :=
  Int.fdiv (toSigned o) 8

/-- The condition test of `IfStatement::interpret` and
`WhileLoop::interpret`: `((intptr_t)v) & ~7` is non-zero.  On a 64-bit
word, `~7` is `2 ^ 64 - 8`. -/
def conditionTruthy (o : Nat) : Bool :=
  (o &&& (2 ^ 64 - 8)) != 0

/-!  ## Interpreter value cells (`Interpreter::Value`)

A `Value` wraps an `Obj` together with an optional uncollectable holder
slot that keeps a held heap pointer visible to the conservative GC.  The
holder is modelled as `Option (Nat × Nat)`: the slot's identity (so that
in-place updates are distinguishable from reallocation) and its contents.
`set` threads a fresh-slot counter standing for the allocator. -/

structure Value where
  object : Nat
  holder : Option (Nat × Nat)
deriving Repr, DecidableEq

/-- `Value::set` from the interpreter source.  Case analysis on whether the
old and the new object `needsGC`:
* GC → non-GC: `GC_free(holder); holder = nullptr`;
* non-GC → GC: `holder = GC_malloc_uncollectable(...); *holder = o`;
* GC → GC: `*holder = o` (in place, same slot);
* non-GC → non-GC: nothing.
Finally `object = o`. -/
def Value.set (v : Value) (o : Nat) (fresh : Nat) : Value × Nat :=
  if needsGC v.object && !needsGC o then
    ({ object := o, holder := none }, fresh)
  else if !needsGC v.object && needsGC o then
    ({ object := o, holder := some (fresh, o) }, fresh + 1)
  else if needsGC v.object && needsGC o then
    ({ object := o, holder := v.holder.map (fun h => (h.1, o)) }, fresh)
  else
    ({ object := o, holder := v.holder }, fresh)

/-- The GC-root invariant of a value cell: it owns a holder slot exactly
when the held value needs GC. -/
def Value.inv (v : Value) : Prop :=
  v.holder.isSome = needsGC v.object

instance (v : Value) : Decidable v.inv := by
  unfold Value.inv; infer_instance

/-- Apply a sequence of `set` calls to a cell, threading the allocator. -/
def Value.setAll (v : Value) (os : List Nat) (fresh : Nat) : Value × Nat :=
  os.foldl (fun p o => Value.set p.1 o p.2) (v, fresh)

/-!  ## Interpreter context (`Interpreter::Context`)

The context owns the global symbol table, a stack of per-frame local
symbol tables, and the return signal.  A symbol table maps a name to the
address of an `Obj` storage cell; cells are modelled as indices into a
flat store of machine words (`Context.store`), covering both global value
cells and the bound-variable regions of closure objects.  Heap objects
carry side metadata keyed by their pointer value. -/

/-- A symbol table: name to cell address (`std::unordered_map<std::string,
Obj *>`). -/
abbrev SymbolTable := List (String × Nat)

/-- Map insertion (`operator[] = v`): replace the binding if the key is
present, otherwise add it. -/
def tableSet : SymbolTable → String → Nat → SymbolTable
  | [], n, a => [(n, a)]
  | (k, v) :: rest, n, a =>
    if k = n then (n, a) :: rest else (k, v) :: tableSet rest n a

/-- Map lookup (`find`). -/
def tableFind : SymbolTable → String → Option Nat
  | [], _ => none
  | (k, v) :: rest, n => if k = n then some v else tableFind rest n

/-- The entry point stored in a closure object: either a cached compiled
function or the interpreter trampoline for the closure's arity. -/
inductive ClosureEntry where
  | compiledFn
  | trampoline (arity : Nat)
deriving Repr, DecidableEq

/-- Metadata of a heap object, keyed by its pointer value.  Strings record
their length (as an encoded small integer, `String::length`) and their
characters; closures record the encoded parameter count, the entry point,
and the location of their bound-variable region inside the store. -/
inductive HeapObj where
  | stringObj (length : Nat) (characters : String)
  | closureObj (parameters : Nat) (invoke : ClosureEntry)
      (boundBase : Nat) (boundCount : Nat)
deriving Repr, DecidableEq

structure Context where
  /-- Global symbol table: name → address of the global's value cell. -/
  globalSymbols : SymbolTable
  /-- Stack of per-activation symbol tables; the head is the top
  (`symbols.back()`). -/
  symbols : List SymbolTable
  /-- Flat store of `Obj`-sized memory cells; a symbol-table entry is an
  index into this store. -/
  store : List Nat
  /-- Heap-object metadata, keyed by pointer value. -/
  heap : List (Nat × HeapObj)
  /-- Allocator state: the next heap allocation returns the 8-aligned
  non-null address `8 * (nextPtr + 1)`. -/
  nextPtr : Nat
  /-- `retVal`: the value being returned (`nullptr`, i.e. 0, if none). -/
  retVal : Nat
  /-- `isReturning`: set by a return statement, checked by statement
  blocks, cleared by the closure/method epilogue. -/
  isReturning : Bool
deriving Repr, DecidableEq

/-- Read the store cell at an address. -/
def readCell (store : List Nat) (a : Nat) : Nat :=
  store.getD a 0

/-- The first half of `Context::lookupSymbol`: if the symbol-table stack
is non-empty, look in the top table only ("we don't need to go deeper,
because any bound variables should be added automatically to the
top"). -/
def topFind : List SymbolTable → String → Option Nat
  | top :: _, name => tableFind top name
  | [], _ => none

/-- `Context::lookupSymbol`: look in the top local table, if any; if not
found there, look in the global table; otherwise return null. -/
def Context.lookupSymbol (c : Context) (name : String) : Option Nat :=
  match topFind c.symbols name with
  | some addr => some addr
  | none => tableFind c.globalSymbols name

/-- `Context::setSymbol(name, Obj val)`: if the name resolves, store the
value through the resolved address; otherwise allocate a fresh global
value cell holding it and record the cell in the global table. -/
def Context.setSymbolVal (c : Context) (name : String) (val : Nat) : Context :=
  match c.lookupSymbol name with
  | none =>
    { c with
      store := c.store ++ [val]
      globalSymbols := tableSet c.globalSymbols name c.store.length }
  | some addr => { c with store := c.store.set addr val }

/-- `Context::setSymbol(name, Obj *val)`: bind a name in the top local
frame to externally owned storage (`(*symbols.back())[name] = val`).
Calling this with an empty stack is undefined in the C++ source and never
happens; modelled as a no-op. -/
def Context.setSymbolRef (c : Context) (name : String) (addr : Nat) : Context :=
  match c.symbols with
  | top :: rest => { c with symbols := tableSet top name addr :: rest }
  | [] => c

/-!  ## AST model (`ast.hh`)

AST nodes own mutable per-node state: every expression carries the
constant-expression cache cell (null, i.e. 0, when empty), and a
`ClosureDecl` carries the capture-analysis results and the tiered-execution
state.  Interpreting or analysing a node may update that state, so every
function below returns the updated node alongside its result.  The
modelled fragment covers the nodes the interpreter claims are about;
classes, `new` expressions and method dispatch on non-integers live in the
(external) runtime and are not modelled. -/

/-- The binary-operator subclasses of `BinOp`. -/
inductive BinOpKind where
  | mul | div | add | sub
  | cmpEq | cmpNe | cmpLt | cmpGt | cmpLE | cmpGE
deriving Repr, DecidableEq

/-- `BinOp::isComparison`: false by default, true for the `Comparison`
subclasses. -/
def BinOpKind.isComparison : BinOpKind → Bool
  | .cmpEq | .cmpNe | .cmpLt | .cmpGt | .cmpLE | .cmpGE => true
  | _ => false

/-- `evaluateWithIntegers` of each `BinOp` subclass, on the signed values
obtained by arithmetic right shift.  C++ integer division truncates
towards zero (`Int.div`); comparisons produce 1 or 0. -/
def BinOpKind.evaluateWithIntegers : BinOpKind → Int → Int → Int
  | .mul, l, r => l * r
  | .div, l, r => Int.tdiv l r
  | .add, l, r => l + r
  | .sub, l, r => l - r
  | .cmpEq, l, r => if l = r then 1 else 0
  | .cmpNe, l, r => if l ≠ r then 1 else 0
  | .cmpLt, l, r => if l < r then 1 else 0
  | .cmpGt, l, r => if l > r then 1 else 0
  | .cmpLE, l, r => if l ≤ r then 1 else 0
  | .cmpGE, l, r => if l ≥ r then 1 else 0

mutual

/-- An expression node: the `Expression` base-class state (the
constant-expression cache cell, 0 when empty) plus the subclass. -/
inductive Expr where
  | mk (cache : Nat) (core : ExprCore)
deriving Repr, DecidableEq

/-- The expression subclasses of `ast.hh` in the modelled fragment. -/
inductive ExprCore where
  | number (value : Int)
  | stringLiteral (value : String)
  | binOp (kind : BinOpKind) (lhs rhs : Expr)
  | varRef (name : String)
  | call (callee : Expr) (method : Option String) (arguments : ExprList)
  | closureDecl (d : ClosureDecl)
deriving Repr, DecidableEq

/-- A list of argument expressions (`ArgList`). -/
inductive ExprList where
  | nil
  | cons (head : Expr) (tail : ExprList)
deriving Repr, DecidableEq

/-- A `ClosureDecl` node: name, parameter list, body, and the mutable
per-declaration state (`executionCount`, `compiledClosure`, `checked`,
`boundVars`, `decls`).  The compiled entry point is only ever compared
against null, so it is modelled as `Option Unit`. -/
inductive ClosureDecl where
  | mk (name : String) (parameters : List String) (body : StmtList)
      (executionCount : Nat) (compiledClosure : Option Unit) (checked : Bool)
      (boundVars : List String) (decls : List String)
deriving Repr, DecidableEq

/-- The statement subclasses of `ast.hh` in the modelled fragment.  A
`Decl` with and without an initialiser are separate constructors. -/
inductive Statement where
  | expression (e : Expr)
  | declInit (name : String) (init : Expr)
  | declNoInit (name : String)
  | assignment (target : String) (expr : Expr)
  | ifStatement (condition : Expr) (body : StmtList)
  | whileLoop (condition : Expr) (body : StmtList)
  | returnStmt (expr : Expr)
deriving Repr, DecidableEq

/-- A `Statements` block. -/
inductive StmtList where
  | nil
  | cons (head : Statement) (tail : StmtList)
deriving Repr, DecidableEq

end

def ClosureDecl.name : ClosureDecl → String
  | .mk n _ _ _ _ _ _ _ => n

def ClosureDecl.parameters : ClosureDecl → List String
  | .mk _ p _ _ _ _ _ _ => p

def ClosureDecl.body : ClosureDecl → StmtList
  | .mk _ _ b _ _ _ _ _ => b

def ClosureDecl.executionCount : ClosureDecl → Nat
  | .mk _ _ _ n _ _ _ _ => n

def ClosureDecl.compiledClosure : ClosureDecl → Option Unit
  | .mk _ _ _ _ cc _ _ _ => cc

def ClosureDecl.checked : ClosureDecl → Bool
  | .mk _ _ _ _ _ ch _ _ => ch

def ClosureDecl.boundVars : ClosureDecl → List String
  | .mk _ _ _ _ _ _ bv _ => bv

def ClosureDecl.decls : ClosureDecl → List String
  | .mk _ _ _ _ _ _ _ ds => ds

def Expr.cache : Expr → Nat
  | .mk cache _ => cache

def Expr.core : Expr → ExprCore
  | .mk _ core => core

/-!  ## Capture analysis (`collectVarUses` / `ClosureDecl::check`)

Name sets (`std::unordered_set<std::string>`) are modelled as duplicate-
free lists with insert and erase; the iteration order of `boundVars` is
the fixed order of the list once computed. -/

/-- Set insertion. -/
def setInsert (s : List String) (x : String) : List String :=
  if x ∈ s then s else x :: s

/-- Insert every element of `xs` (`uses.insert(boundVars.begin(), ...)`). -/
def setInsertAll (s : List String) (xs : List String) : List String :=
  xs.foldl setInsert s

/-- Set erasure. -/
def setErase (s : List String) (x : String) : List String :=
  s.filter (fun y => y ≠ x)

mutual

/-- `collectVarUses` on an expression node: dispatch to the subclass,
threading the declared-name and used-name accumulators (passed by
reference in C++). -/
def Expr.collectVarUses :
    Expr → List String → List String → Expr × List String × List String
  | .mk cache core, ds, us =>
    let (core', ds', us') := ExprCore.collectVarUses core ds us
    (.mk cache core', ds', us')

def ExprCore.collectVarUses :
    ExprCore → List String → List String → ExprCore × List String × List String
  | .number v, ds, us => (.number v, ds, us)
  | .stringLiteral s, ds, us => (.stringLiteral s, ds, us)
  | .binOp k l r, ds, us =>
    let (l', ds₁, us₁) := Expr.collectVarUses l ds us
    let (r', ds₂, us₂) := Expr.collectVarUses r ds₁ us₁
    (.binOp k l' r', ds₂, us₂)
  | .varRef n, ds, us => (.varRef n, ds, setInsert us n)
  | .call callee m args, ds, us =>
    let (callee', ds₁, us₁) := Expr.collectVarUses callee ds us
    let (args', ds₂, us₂) := ExprList.collectVarUses args ds₁ us₁
    (.call callee' m args', ds₂, us₂)
  | .closureDecl d, ds, us =>
    -- ClosureDecl::collectVarUses: run check(), report this closure's
    -- bound variables as uses of the enclosing scope, and its own name as
    -- a declaration of the enclosing scope.
    let d' := ClosureDecl.check d
    (.closureDecl d', setInsert ds d'.name, setInsertAll us d'.boundVars)

def ExprList.collectVarUses :
    ExprList → List String → List String → ExprList × List String × List String
  | .nil, ds, us => (.nil, ds, us)
  | .cons e rest, ds, us =>
    let (e', ds₁, us₁) := Expr.collectVarUses e ds us
    let (rest', ds₂, us₂) := ExprList.collectVarUses rest ds₁ us₁
    (.cons e' rest', ds₂, us₂)

/-- `ClosureDecl::check`: if already checked, do nothing.  Otherwise
collect the declarations and uses of the body into the member sets
(`body->collectVarUses(decls, boundVars)`), then erase every parameter
name and every declared name from `boundVars`, and set `checked`. -/
def ClosureDecl.check : ClosureDecl → ClosureDecl
  | .mk name params body ec cc checked bvs dcls =>
    if checked then .mk name params body ec cc checked bvs dcls
    else
      let (body', dcls', bvs') := StmtList.collectVarUses body dcls bvs
      let bvs' := params.foldl setErase bvs'
      let bvs' := dcls'.foldl setErase bvs'
      .mk name params body' ec cc true bvs' dcls'

def Statement.collectVarUses :
    Statement → List String → List String → Statement × List String × List String
  | .expression e, ds, us =>
    let (e', ds', us') := Expr.collectVarUses e ds us
    (.expression e', ds', us')
  -- Decl::collectVarUses only records the declared name; the initialiser
  -- expression is not visited (as in `ast.hh`).
  | .declInit n init, ds, us => (.declInit n init, setInsert ds n, us)
  | .declNoInit n, ds, us => (.declNoInit n, setInsert ds n, us)
  | .assignment target expr, ds, us =>
    -- Assignment::collectVarUses visits the target VarRef (a use), then
    -- the assigned expression.
    let (expr', ds', us') := Expr.collectVarUses expr ds (setInsert us target)
    (.assignment target expr', ds', us')
  | .ifStatement cond body, ds, us =>
    let (cond', ds₁, us₁) := Expr.collectVarUses cond ds us
    let (body', ds₂, us₂) := StmtList.collectVarUses body ds₁ us₁
    (.ifStatement cond' body', ds₂, us₂)
  | .whileLoop cond body, ds, us =>
    let (cond', ds₁, us₁) := Expr.collectVarUses cond ds us
    let (body', ds₂, us₂) := StmtList.collectVarUses body ds₁ us₁
    (.whileLoop cond' body', ds₂, us₂)
  | .returnStmt e, ds, us =>
    let (e', ds', us') := Expr.collectVarUses e ds us
    (.returnStmt e', ds', us')

def StmtList.collectVarUses :
    StmtList → List String → List String → StmtList × List String × List String
  | .nil, ds, us => (.nil, ds, us)
  | .cons s rest, ds, us =>
    let (s', ds₁, us₁) := Statement.collectVarUses s ds us
    let (rest', ds₂, us₂) := StmtList.collectVarUses rest ds₁ us₁
    (.cons s' rest', ds₂, us₂)

end

/-!  ## Spec-side reference and declaration collectors

To state the capture-soundness claim, references and declarations are also
collected directly from the syntax: `refNames` gathers the names of
`VarRef` nodes that are free at the level of the enclosing closure body
(references inside a nested closure count only when they are free in the
nested closure as well), with a flag choosing whether references inside
declaration initialisers count; `declaredNames` gathers the names the
analysis treats as declared (declaration names and nested-closure names).
These follow the spec's description of uses and declarations; they are the
yardstick against which the implementation's collector is measured. -/

mutual

def Expr.declaredNames : Expr → List String
  | .mk _ core => ExprCore.declaredNames core

def ExprCore.declaredNames : ExprCore → List String
  | .number _ => []
  | .stringLiteral _ => []
  | .binOp _ l r => Expr.declaredNames l ++ Expr.declaredNames r
  | .varRef _ => []
  | .call callee _ args => Expr.declaredNames callee ++ ExprList.declaredNames args
  | .closureDecl (.mk n _ _ _ _ _ _ _) => [n]

def ExprList.declaredNames : ExprList → List String
  | .nil => []
  | .cons e rest => Expr.declaredNames e ++ ExprList.declaredNames rest

def Statement.declaredNames : Statement → List String
  | .expression e => Expr.declaredNames e
  | .declInit n _ => [n]
  | .declNoInit n => [n]
  | .assignment _ e => Expr.declaredNames e
  | .ifStatement cond body => Expr.declaredNames cond ++ StmtList.declaredNames body
  | .whileLoop cond body => Expr.declaredNames cond ++ StmtList.declaredNames body
  | .returnStmt e => Expr.declaredNames e

def StmtList.declaredNames : StmtList → List String
  | .nil => []
  | .cons s rest => Statement.declaredNames s ++ StmtList.declaredNames rest

end

mutual

def Expr.refNames (withInits : Bool) : Expr → List String
  | .mk _ core => ExprCore.refNames withInits core

def ExprCore.refNames (withInits : Bool) : ExprCore → List String
  | .number _ => []
  | .stringLiteral _ => []
  | .binOp _ l r => Expr.refNames withInits l ++ Expr.refNames withInits r
  | .varRef n => [n]
  | .call callee _ args =>
    Expr.refNames withInits callee ++ ExprList.refNames withInits args
  | .closureDecl (.mk _ params body _ _ _ _ _) =>
    (StmtList.refNames withInits body).filter
      (fun x => !params.contains x && !(StmtList.declaredNames body).contains x)

def ExprList.refNames (withInits : Bool) : ExprList → List String
  | .nil => []
  | .cons e rest => Expr.refNames withInits e ++ ExprList.refNames withInits rest

def Statement.refNames (withInits : Bool) : Statement → List String
  | .expression e => Expr.refNames withInits e
  | .declInit _ init => if withInits then Expr.refNames withInits init else []
  | .declNoInit _ => []
  | .assignment target e => target :: Expr.refNames withInits e
  | .ifStatement cond body =>
    Expr.refNames withInits cond ++ StmtList.refNames withInits body
  | .whileLoop cond body =>
    Expr.refNames withInits cond ++ StmtList.refNames withInits body
  | .returnStmt e => Expr.refNames withInits e

def StmtList.refNames (withInits : Bool) : StmtList → List String
  | .nil => []
  | .cons s rest => Statement.refNames withInits s ++ StmtList.refNames withInits rest

end

/-!  Parser-fresh analysis state: every `ClosureDecl` node in the tree is
unchecked with empty `boundVars` and `decls`, as the parser builds it. -/

mutual

def Expr.analysisFresh : Expr → Bool
  | .mk _ core => ExprCore.analysisFresh core

def ExprCore.analysisFresh : ExprCore → Bool
  | .number _ => true
  | .stringLiteral _ => true
  | .binOp _ l r => Expr.analysisFresh l && Expr.analysisFresh r
  | .varRef _ => true
  | .call callee _ args => Expr.analysisFresh callee && ExprList.analysisFresh args
  | .closureDecl (.mk _ _ body _ _ checked bvs dcls) =>
    !checked && bvs.isEmpty && dcls.isEmpty && StmtList.analysisFresh body

def ExprList.analysisFresh : ExprList → Bool
  | .nil => true
  | .cons e rest => Expr.analysisFresh e && ExprList.analysisFresh rest

def Statement.analysisFresh : Statement → Bool
  | .expression e => Expr.analysisFresh e
  | .declInit _ init => Expr.analysisFresh init
  | .declNoInit _ => true
  | .assignment _ e => Expr.analysisFresh e
  | .ifStatement cond body => Expr.analysisFresh cond && StmtList.analysisFresh body
  | .whileLoop cond body => Expr.analysisFresh cond && StmtList.analysisFresh body
  | .returnStmt e => Expr.analysisFresh e

def StmtList.analysisFresh : StmtList → Bool
  | .nil => true
  | .cons s rest => Statement.analysisFresh s && StmtList.analysisFresh rest

end

/-!  ## Constant expressions -/

mutual

/-- `Expression::isConstantExpression`: false by default, true for
literals, and for a binary operation exactly when both operands are
constant expressions. -/
def Expr.isConstantExpression : Expr → Bool
  | .mk _ core => ExprCore.isConstantExpression core

def ExprCore.isConstantExpression : ExprCore → Bool
  | .number _ => true
  | .stringLiteral _ => true
  | .binOp _ l r => Expr.isConstantExpression l && Expr.isConstantExpression r
  | .varRef _ => false
  | .call _ _ _ => false
  | .closureDecl _ => false

end

/-!  ## The expression evaluator

`Expr.evaluate` is `Expression::evaluate` (the caching wrapper);
`ExprCore.evaluateExpr` is the per-subclass `evaluateExpr`.  Both return
the updated node (per-node mutable state) and the updated context, plus an
instrumentation counter: the number of `evaluateExpr` dispatches the call
performed.  The counter exists only so that theorems can observe that
nothing was (re-)evaluated; it has no influence on any result.  Errors
(`Except.error`) model the fatal conditions of §7: the source either
dereferences null or fails an assertion there, aborting the evaluation. -/

inductive Err where
  | unboundName (name : String)
  | notModelled
deriving Repr, DecidableEq

/-- Copy the current values of the bound variables into the closure's
bound-variable region (`C->boundVars[i++] = *c.lookupSymbol(var);`).
A null lookup result would be dereferenced in the source: fatal. -/
def copyBoundVars : List String → Nat → Context → Except Err Context
  | [], _, c => .ok c
  | v :: rest, i, c =>
    match c.lookupSymbol v with
    | none => .error (.unboundName v)
    | some a =>
      copyBoundVars rest (i + 1) { c with store := c.store.set i (readCell c.store a) }

mutual

/-- `Expression::evaluate`: if this is a constant expression whose value
is cached, return the cached result; otherwise ask the subclass to
evaluate, and cache the result if this is a constant expression. -/
def Expr.evaluate : Expr → Context → Except Err (Nat × Expr × Context × Nat)
  | .mk cache core, c =>
    if cache ≠ 0 then .ok (cache, .mk cache core, c, 0)
    else
      match ExprCore.evaluateExpr core c with
      | .error e => .error e
      | .ok (r, core', c', w) =>
        if (Expr.mk cache core').isConstantExpression then
          .ok (r, .mk r core', c', w + 1)
        else
          .ok (r, .mk cache core', c', w + 1)

def ExprCore.evaluateExpr :
    ExprCore → Context → Except Err (Nat × ExprCore × Context × Nat)
  | .number v, c =>
    -- Number::evaluateExpr: (Obj)((value << 3) | 1)
    .ok (createSmallInteger v, .number v, c, 0)
  | .stringLiteral s, c =>
    -- StringLiteral::evaluateExpr: gcAlloc a String, set isa, the length
    -- (as a small integer) and the characters
    let ptr := 8 * (c.nextPtr + 1)
    let c' :=
      { c with
        nextPtr := c.nextPtr + 1
        heap := (ptr, .stringObj (createSmallInteger (s.length : Int)) s) :: c.heap }
    .ok (ptr, .stringLiteral s, c', 0)
  | .binOp k l r, c =>
    -- BinOp::evaluateExpr: evaluate LHS then RHS; comparisons and
    -- integer-integer pairs go through evaluateWithIntegers on the
    -- arithmetically right-shifted words; otherwise the operator becomes
    -- a method call on LHS (external runtime, not modelled).
    match Expr.evaluate l c with
    | .error e => .error e
    | .ok (lv, l', c₁, w₁) =>
      match Expr.evaluate r c₁ with
      | .error e => .error e
      | .ok (rv, r', c₂, w₂) =>
        if k.isComparison || (isInteger lv && isInteger rv) then
          .ok (createSmallInteger (k.evaluateWithIntegers (asr3 lv) (asr3 rv)),
            .binOp k l' r', c₂, w₁ + w₂)
        else
          .error .notModelled
  | .varRef n, c =>
    -- VarRef::evaluateExpr: `*c.lookupSymbol(name->name)`; there is no
    -- null check, so an unbound name is the fatal UnboundName condition.
    match c.lookupSymbol n with
    | none => .error (.unboundName n)
    | some addr => .ok (readCell c.store addr, .varRef n, c, 0)
  | .call _ _ _, _ =>
    -- Call::evaluateExpr invokes closures/methods: outside the modelled
    -- fragment.
    .error .notModelled
  | .closureDecl d, c =>
    -- ClosureDecl::evaluateExpr: check(), allocate the closure with space
    -- for the bound variables (zero-initialised), fill in the header,
    -- bind the closure's own name in the current scope, and then copy the
    -- current values of the bound variables into the closure.
    let d' := ClosureDecl.check d
    let base := c.store.length
    let ptr := 8 * (c.nextPtr + 1)
    let params := d'.parameters.length
    let invoke : ClosureEntry :=
      match d'.compiledClosure with
      | some _ => .compiledFn
      | none => .trampoline params
    let c₁ :=
      { c with
        store := c.store ++ List.replicate d'.boundVars.length 0
        nextPtr := c.nextPtr + 1
        heap := (ptr, .closureObj (createSmallInteger (params : Int)) invoke
          base d'.boundVars.length) :: c.heap }
    let c₂ := c₁.setSymbolVal d'.name ptr
    match copyBoundVars d'.boundVars base c₂ with
    | .error e => .error e
    | .ok c₃ => .ok (ptr, .closureDecl d', c₃, 0)

end

/-!  ## The statement interpreter

Interpretation can loop (`while`), so the functions take a fuel bound on
the nesting depth of loop iterations; `Res.timeout` reports exhaustion.
As with expressions, the updated node is returned, and the counter
accumulates the number of statement executions and `evaluateExpr`
dispatches performed. -/

inductive Res (α : Type) where
  | ok (a : α)
  | fault (e : Err)
  | timeout
deriving Repr, DecidableEq

mutual

def Statement.interpret : Nat → Statement → Context → Res (Statement × Context × Nat)
  | _, .expression e, c =>
    -- Expression::interpret: evaluate and discard
    match Expr.evaluate e c with
    | .error err => .fault err
    | .ok (_, e', c', w) => .ok (.expression e', c', w + 1)
  | _, .declInit n init, c =>
    -- Decl::interpret with an initialiser
    match Expr.evaluate init c with
    | .error err => .fault err
    | .ok (v, init', c', w) => .ok (.declInit n init', c'.setSymbolVal n v, w + 1)
  | _, .declNoInit n, c =>
    -- Decl::interpret without an initialiser: store null
    .ok (.declNoInit n, c.setSymbolVal n 0, 1)
  | _, .assignment t e, c =>
    -- Assignment::interpret
    match Expr.evaluate e c with
    | .error err => .fault err
    | .ok (v, e', c', w) => .ok (.assignment t e', c'.setSymbolVal t v, w + 1)
  | fuel, .ifStatement cond body, c =>
    -- IfStatement::interpret: run the body iff the condition value with
    -- the tag bits cleared is non-zero
    match Expr.evaluate cond c with
    | .error err => .fault err
    | .ok (v, cond', c', w) =>
      if conditionTruthy v then
        match StmtList.interpret fuel body c' with
        | .ok (body', c'', w') => .ok (.ifStatement cond' body', c'', w + w' + 1)
        | .fault err => .fault err
        | .timeout => .timeout
      else .ok (.ifStatement cond' body, c', w + 1)
  | 0, .whileLoop _ _, _ => .timeout
  | fuel + 1, .whileLoop cond body, c =>
    -- WhileLoop::interpret: the same condition test as `if`; interpret
    -- the body and loop (the fuel bounds the number of iterations; it is
    -- instrumentation, not part of the source).  The loop header itself
    -- never consults isReturning.
    match Expr.evaluate cond c with
    | .error err => .fault err
    | .ok (v, cond', c', w) =>
      if conditionTruthy v then
        match StmtList.interpret (fuel + 1) body c' with
        | .ok (body', c'', w') =>
          match Statement.interpret fuel (.whileLoop cond' body') c'' with
          | .ok (s', c''', w'') => .ok (s', c''', w + w' + w'' + 1)
          | .fault err => .fault err
          | .timeout => .timeout
        | .fault err => .fault err
        | .timeout => .timeout
      else .ok (.whileLoop cond' body, c', w + 1)
  | _, .returnStmt e, c =>
    -- Return::interpret: evaluate the expression into retVal, then set
    -- isReturning
    match Expr.evaluate e c with
    | .error err => .fault err
    | .ok (v, e', c', w) =>
      .ok (.returnStmt e', { c' with retVal := v, isReturning := true }, w + 1)
termination_by fuel s _ => (fuel, sizeOf s)

def StmtList.interpret : Nat → StmtList → Context → Res (StmtList × Context × Nat)
  | _, .nil, c => .ok (.nil, c, 0)
  | fuel, .cons s rest, c =>
    -- Statements::interpret: stop before each statement once a return
    -- statement has executed
    if c.isReturning then .ok (.cons s rest, c, 0)
    else
      match Statement.interpret fuel s c with
      | .ok (s', c', w) =>
        match StmtList.interpret fuel rest c' with
        | .ok (rest', c'', w') => .ok (.cons s' rest', c'', w + w')
        | .fault err => .fault err
        | .timeout => .timeout
      | .fault err => .fault err
      | .timeout => .timeout
termination_by fuel sl _ => (fuel, sizeOf sl)

end

/-!  ## Tiered execution (`interpretMethod` / `interpretClosure`)

Each interpreted entry of a declaration updates the declaration's
`executionCount` / `compiledClosure` state and then either runs the
compiled code, the tree-walking interpreter, or both.  The bodies of
`compileMethod` / `compileClosure` belong to the external code generator;
all the tiered-handoff claims depend on is the control flow around them,
so an entry is modelled as a transition on the declaration state together
with a record of the externally observable events of that entry.  The body
interpretation itself (symbol-table push, parameter binding, epilogue) is
summarised by the `interpretedBody` event. -/

/-- `ClosureDecl::compileThreshold = 10`. -/
def compileThreshold : Nat := 10

def ClosureDecl.withExecutionCount : ClosureDecl → Nat → ClosureDecl
  | .mk n p b _ cc ch bv ds, ec => .mk n p b ec cc ch bv ds

def ClosureDecl.withCompiled : ClosureDecl → ClosureDecl
  | .mk n p b ec _ ch bv ds => .mk n p b ec (some ()) ch bv ds

/-- The externally observable events of one interpreted entry. -/
structure EntryEvents where
  /-- the code generator was invoked during this entry -/
  compiledNow : Bool
  /-- the cached compiled entry point was invoked during this entry -/
  calledCompiled : Bool
  /-- the tree-walking interpreter executed the body during this entry -/
  interpretedBody : Bool
  /-- the value this entry returns is the compiled call's result -/
  returnedCompiledResult : Bool
deriving Repr, DecidableEq

/-- One entry of `ClosureDecl::interpretMethod`: `check()`; increment
`executionCount`; when the count reaches the threshold, compile and store
the result in the method table and in `compiledClosure`; if
`compiledClosure` is now non-null, return `callCompiledMethod(...)`
immediately (the body is not interpreted); otherwise interpret the
body. -/
def interpretMethodEntry (d0 : ClosureDecl) : ClosureDecl × EntryEvents :=
  let d := d0.check
  let d := d.withExecutionCount (d.executionCount + 1)
  let compiledNow := d.executionCount == compileThreshold
  let d := if compiledNow then d.withCompiled else d
  match d.compiledClosure with
  | some _ =>
    (d, { compiledNow := compiledNow, calledCompiled := true,
          interpretedBody := false, returnedCompiledResult := true })
  | none =>
    (d, { compiledNow := compiledNow, calledCompiled := false,
          interpretedBody := true, returnedCompiledResult := false })

/-- One entry of `ClosureDecl::interpretClosure`: increment
`executionCount`; when the count reaches the threshold, compile and store
the result in `self->invoke` and `compiledClosure`; if `compiledClosure`
is now non-null, call `callCompiledClosure(...)` — but the call's result
is discarded and execution falls through, so the interpreter still runs
the body and its value is what the entry returns. -/
def interpretClosureEntry (d0 : ClosureDecl) : ClosureDecl × EntryEvents :=
  let d := d0.withExecutionCount (d0.executionCount + 1)
  let compiledNow := d.executionCount == compileThreshold
  let d := if compiledNow then d.withCompiled else d
  let calledCompiled := d.compiledClosure.isSome
  (d, { compiledNow := compiledNow, calledCompiled := calledCompiled,
        interpretedBody := true, returnedCompiledResult := false })

/-- Run `n` interpreted entries of a declaration, collecting the events of
each entry in order. -/
def runEntries (step : ClosureDecl → ClosureDecl × EntryEvents) :
    Nat → ClosureDecl → ClosureDecl × List EntryEvents
  | 0, d => (d, [])
  | n + 1, d =>
    let (d', es) := runEntries step n d
    let (d'', e) := step d'
    (d'', es ++ [e])

/-- Concatenation of statement blocks (to split a block around a
return). -/
def StmtList.append : StmtList → StmtList → StmtList
  | .nil, b => b
  | .cons s rest, b => .cons s (StmtList.append rest b)

/-- Well-formedness of a context: every symbol-table entry points at an
existing store cell (the C++ invariant that every pointer in a symbol
table refers to live storage). -/
def Context.wf (c : Context) : Prop :=
  (∀ p ∈ c.globalSymbols, p.2 < c.store.length) ∧
  (∀ t ∈ c.symbols, ∀ p ∈ t, p.2 < c.store.length)

instance (c : Context) : Decidable c.wf := by
  unfold Context.wf; infer_instance

/-- The context as it stands inside `ClosureDecl::evaluateExpr` right
after the closure object has been allocated and filled in and
`c.setSymbol(name->name, (Obj)C)` has bound the closure's own name — that
is, just before the bound variables are copied.  (This names an
intermediate state of the source function so the copy order can be
stated.) -/
def mkClosureCtx (d : ClosureDecl) (c : Context) : Context :=
  let d' := d.check
  let params := d'.parameters.length
  let invoke : ClosureEntry :=
    match d'.compiledClosure with
    | some _ => .compiledFn
    | none => .trampoline params
  let c₁ : Context :=
    { c with
      store := c.store ++ List.replicate d'.boundVars.length 0
      nextPtr := c.nextPtr + 1
      heap := (8 * (c.nextPtr + 1), .closureObj (createSmallInteger (params : Int))
        invoke c.store.length d'.boundVars.length) :: c.heap }
  c₁.setSymbolVal d'.name (8 * (c.nextPtr + 1))

/-!  ## Arithmetic of the tagged representation -/

/-- On a 64-bit word, masking with `~7` clears the three tag bits. -/
lemma and_not7_eq (x : Nat) (hx : x < 2 ^ 64) :
    x &&& (2 ^ 64 - 8) = 8 * (x / 8) := by
  have hmask : (2 ^ 64 - 8 : Nat) = (2 ^ 61 - 1) <<< 3 := by
    norm_num [Nat.shiftLeft_eq]
  have hdiv : 8 * (x / 8) = (x >>> 3) <<< 3 := by
    simp [Nat.shiftRight_eq_div_pow, Nat.shiftLeft_eq, Nat.mul_comm]
  rw [hmask, hdiv]
  apply Nat.eq_of_testBit_eq
  intro i
  simp only [Nat.testBit_and, Nat.testBit_shiftLeft, Nat.testBit_shiftRight,
    Nat.testBit_two_pow_sub_one]
  rcases lt_or_ge i 3 with h3 | h3
  · simp [Nat.not_le.mpr h3]
  · rcases lt_or_ge i 64 with h64 | h64
    · have heq : 3 + (i - 3) = i := by omega
      have hlt : i - 3 < 61 := by omega
      simp [h3, heq, hlt]
    · have hbit : x.testBit i = false := by
        apply Nat.testBit_lt_two_pow
        calc x < 2 ^ 64 := hx
          _ ≤ 2 ^ i := Nat.pow_le_pow_right (by norm_num) h64
      have hge : ¬ (i - 3 < 61) := by omega
      have heq : 3 + (i - 3) = i := by omega
      simp [h3, hbit, hge, heq]

/-- The condition of an `if`/`while` holds exactly for word values of 8 or
more, i.e. those with a bit above the tag bits. -/
lemma conditionTruthy_iff (x : Nat) (hx : x < 2 ^ 64) :
    conditionTruthy x = true ↔ 8 ≤ x := by
  unfold conditionTruthy
  rw [and_not7_eq x hx]
  simp only [bne_iff_ne, ne_eq]
  omega

lemma createSmallInteger_mod8 (v : Int) : createSmallInteger v % 8 = 1 := by
  unfold createSmallInteger
  omega

lemma createSmallInteger_lt (v : Int) : createSmallInteger v < 2 ^ 64 := by
  unfold createSmallInteger
  omega

lemma createSmallInteger_ne_zero (v : Int) : createSmallInteger v ≠ 0 := by
  have := createSmallInteger_mod8 v
  omega

lemma createSmallInteger_zero : createSmallInteger 0 = 1 := by
  unfold createSmallInteger
  norm_num

/-- A small integer in the 61-bit range encodes to a word of 8 or more
exactly when it is non-zero. -/
lemma createSmallInteger_ge8 (v : Int) (h0 : v ≠ 0)
    (h1 : -(2 ^ 60) ≤ v) (h2 : v < 2 ^ 60) :
    8 ≤ createSmallInteger v := by
  unfold createSmallInteger
  omega

/-!  ## Lemmas about value cells -/

lemma Value.inv_set (v : Value) (o : Nat) (fresh : Nat) (h : v.inv) :
    (v.set o fresh).1.inv := by
  rcases hold : needsGC v.object <;> rcases hnew : needsGC o <;>
    simp_all [Value.set, Value.inv]

lemma Value.inv_setAll (v : Value) (os : List Nat) (fresh : Nat) (h : v.inv) :
    (v.setAll os fresh).1.inv := by
  induction os generalizing v fresh with
  | nil => simpa [Value.setAll]
  | cons o rest ih =>
    have hstep := Value.inv_set v o fresh h
    simpa [Value.setAll, List.foldl_cons] using
      ih (v.set o fresh).1 (v.set o fresh).2 hstep

/-!  ## Claim theorems -/

/-- Claim C9: after every `set(o)` call on an interpreter value cell, the
cell owns an uncollectable holder slot iff the held value is a heap
pointer (`needsGC`); a non-GC→GC transition allocates the slot, a
GC→non-GC transition frees it, and a GC→GC transition updates the
existing slot in place (same slot identity, no allocation); the invariant
is preserved along any sequence of `set` calls. -/
theorem claim_C9_value_cell_gc_roots :
    ∀ (v : Value) (o : Nat) (fresh : Nat), v.inv →
      ((v.set o fresh).1.inv ∧ (v.set o fresh).1.object = o) ∧
      (needsGC v.object = false → needsGC o = true →
        (v.set o fresh).1.holder = some (fresh, o) ∧ (v.set o fresh).2 = fresh + 1) ∧
      (needsGC v.object = true → needsGC o = false →
        (v.set o fresh).1.holder = none ∧ (v.set o fresh).2 = fresh) ∧
      (needsGC v.object = true → needsGC o = true →
        ∀ id x, v.holder = some (id, x) →
          (v.set o fresh).1.holder = some (id, o) ∧ (v.set o fresh).2 = fresh) ∧
      (needsGC v.object = false → needsGC o = false →
        (v.set o fresh).1.holder = none ∧ (v.set o fresh).2 = fresh) ∧
      (∀ os : List Nat, ((v.setAll os fresh).1).inv) := by
  intro v o fresh hinv
  refine ⟨⟨Value.inv_set v o fresh hinv, ?_⟩, ?_, ?_, ?_, ?_, ?_⟩
  · rcases hold : needsGC v.object <;> rcases hnew : needsGC o <;>
      simp_all [Value.set]
  · intro hold hnew; simp_all [Value.set]
  · intro hold hnew; simp_all [Value.set]
  · intro hold hnew id x hh; simp_all [Value.set]
  · intro hold hnew
    have : v.holder = none := by
      cases hh : v.holder <;> simp_all [Value.inv]
    simp_all [Value.set]
  · intro os; exact Value.inv_setAll v os fresh hinv

/-- Claim C9 witness: a concrete cell holding null acquires a root slot
when set to a heap pointer. -/
theorem claim_C9_witness :
    (Value.mk 0 none).inv ∧
    ((Value.mk 0 none).set 16 0).1.holder = some (0, 16) := by
  refine ⟨by decide, ?_⟩
  exact ((claim_C9_value_cell_gc_roots (Value.mk 0 none) 16 0 (by decide)).2.1
    (by decide) (by decide)).1

/-- Claim C10: `lookupSymbol` consults only the topmost local frame and
then the global map: when a name is absent from the top frame, the lookup
result is exactly the global table's result, even when some deeper
(enclosing, still live) frame binds the name. -/
theorem claim_C10_lookup_top_frame_only :
    ∀ (c : Context) (top : SymbolTable) (deeper : List SymbolTable) (name : String),
      c.symbols = top :: deeper →
      tableFind top name = none →
      (∃ f ∈ deeper, (tableFind f name).isSome = true) →
      c.lookupSymbol name = tableFind c.globalSymbols name := by
  intro c top deeper name hsym htop _
  unfold Context.lookupSymbol
  rw [hsym]
  simp [topFind, htop]

/-- Claim C10 witness: with the top frame empty, an enclosing frame
binding `x` to cell 1 is skipped and the global cell is returned. -/
theorem claim_C10_witness :
    Context.lookupSymbol
      { globalSymbols := [("x", 0)], symbols := [[], [("x", 1)]],
        store := [5, 7], heap := [], nextPtr := 0, retVal := 0,
        isReturning := false } "x" = tableFind [("x", 0)] "x" :=
  claim_C10_lookup_top_frame_only _ [] [[("x", 1)]] "x" rfl rfl
    ⟨[("x", 1)], by simp, by decide⟩

/-- Claim C3: evaluating a `VarRef` whose name is unbound (null
`lookupSymbol`) is the fatal UnboundName condition (the source
dereferences the null result), and it short-circuits the enclosing
statement block: the whole block evaluates to the fault and the remaining
statements never run. -/
theorem claim_C3_unbound_varref_fatal :
    ∀ (x : String) (c : Context) (fuel : Nat) (rest : StmtList),
      c.lookupSymbol x = none → c.isReturning = false →
      Expr.evaluate (.mk 0 (.varRef x)) c = .error (.unboundName x) ∧
      StmtList.interpret fuel (.cons (.expression (.mk 0 (.varRef x))) rest) c =
        .fault (.unboundName x) := by
  intro x c fuel rest hlook hret
  have h₁ : Expr.evaluate (.mk 0 (.varRef x)) c = .error (.unboundName x) := by
    simp [Expr.evaluate, ExprCore.evaluateExpr, hlook]
  refine ⟨h₁, ?_⟩
  simp [StmtList.interpret, Statement.interpret, hret, h₁]

/-- Claim C3 witness: an unbound `y` faults a two-statement block. -/
theorem claim_C3_witness :
    StmtList.interpret 3
      (.cons (.expression (.mk 0 (.varRef "y")))
        (.cons (.returnStmt (.mk 0 (.number 1))) .nil))
      { globalSymbols := [], symbols := [], store := [], heap := [],
        nextPtr := 0, retVal := 0, isReturning := false } =
      .fault (.unboundName "y") :=
  (claim_C3_unbound_varref_fatal "y"
    { globalSymbols := [], symbols := [], store := [], heap := [],
      nextPtr := 0, retVal := 0, isReturning := false }
    3 (.cons (.returnStmt (.mk 0 (.number 1))) .nil) rfl rfl).2

/-- Claim C6: an `if` statement executes its body iff its condition's
value, with the three tag bits cleared, is non-zero, and a `while` loop
applies the identical test to its condition; in particular null and the
encoded small integer 0 are false, and every non-zero 61-bit small
integer and every heap pointer (non-null, 8-aligned word) is true. -/
theorem claim_C6_truthiness :
    (∀ (fuel : Nat) (cond : Expr) (body : StmtList) (c : Context)
        (v : Nat) (cond' : Expr) (c' : Context) (w : Nat),
      Expr.evaluate cond c = .ok (v, cond', c', w) →
      (conditionTruthy v = false →
        Statement.interpret fuel (.ifStatement cond body) c =
          .ok (.ifStatement cond' body, c', w + 1)) ∧
      (conditionTruthy v = true →
        ∀ body' c'' w', StmtList.interpret fuel body c' = .ok (body', c'', w') →
          Statement.interpret fuel (.ifStatement cond body) c =
            .ok (.ifStatement cond' body', c'', w + w' + 1))) ∧
    (∀ (fuel : Nat) (cond : Expr) (body : StmtList) (c : Context)
        (v : Nat) (cond' : Expr) (c' : Context) (w : Nat),
      Expr.evaluate cond c = .ok (v, cond', c', w) →
      (conditionTruthy v = false →
        Statement.interpret (fuel + 1) (.whileLoop cond body) c =
          .ok (.whileLoop cond' body, c', w + 1)) ∧
      (conditionTruthy v = true →
        ∀ body' c'' w', StmtList.interpret (fuel + 1) body c' = .ok (body', c'', w') →
          Statement.interpret (fuel + 1) (.whileLoop cond body) c =
            (match Statement.interpret fuel (.whileLoop cond' body') c'' with
             | .ok (s', c''', w'') => .ok (s', c''', w + w' + w'' + 1)
             | .fault e => .fault e
             | .timeout => .timeout))) ∧
    conditionTruthy 0 = false ∧
    conditionTruthy (createSmallInteger 0) = false ∧
    (∀ n : Int, -(2 ^ 60) ≤ n → n < 2 ^ 60 → n ≠ 0 →
      conditionTruthy (createSmallInteger n) = true) ∧
    (∀ p : Nat, p ≠ 0 → p % 8 = 0 → p < 2 ^ 64 →
      conditionTruthy p = true) := by
  refine ⟨?_, ?_, by decide, ?_, ?_, ?_⟩
  · intro fuel cond body c v cond' c' w heval
    constructor
    · intro hfalse
      simp [Statement.interpret, heval, hfalse]
    · intro htrue body' c'' w' hbody
      simp [Statement.interpret, heval, htrue, hbody]
  · intro fuel cond body c v cond' c' w heval
    constructor
    · intro hfalse
      simp [Statement.interpret, heval, hfalse]
    · intro htrue body' c'' w' hbody
      simp [Statement.interpret, heval, htrue, hbody]
  · rw [createSmallInteger_zero]; decide
  · intro n h1 h2 h0
    rw [conditionTruthy_iff _ (createSmallInteger_lt n)]
    exact createSmallInteger_ge8 n h0 h1 h2
  · intro p hp0 hp8 hplt
    rw [conditionTruthy_iff _ hplt]
    omega

/-- Claim C6 witness: the heap pointer 16 is a true condition. -/
theorem claim_C6_witness : conditionTruthy 16 = true :=
  claim_C6_truthiness.2.2.2.2.2 16 (by decide) (by decide) (by norm_num)

/-!  ## Lemmas for the return short-circuit -/

/-- A block whose context is already returning interprets no statement:
the state, the nodes and the work counter are untouched. -/
lemma StmtList.interpret_of_returning (fuel : Nat) (sl : StmtList) (c : Context)
    (h : c.isReturning = true) :
    StmtList.interpret fuel sl c = .ok (sl, c, 0) := by
  cases sl <;> simp [StmtList.interpret, h]

/-- If interpreting a prefix of a block ends in a returning state, the
whole block's interpretation is that prefix's: the appended statements
contribute nothing (no work, no state change, untouched nodes). -/
lemma StmtList.interpret_append_of_returning :
    ∀ (pre : StmtList) (fuel : Nat) (c : Context) (pre' : StmtList)
      (c₁ : Context) (w : Nat) (post : StmtList),
      StmtList.interpret fuel pre c = .ok (pre', c₁, w) →
      c₁.isReturning = true →
      StmtList.interpret fuel (pre.append post) c = .ok (pre'.append post, c₁, w)
  | .nil, fuel, c, pre', c₁, w, post, h, hret => by
    simp [StmtList.interpret] at h
    obtain ⟨h1, h2, h3⟩ := h
    subst h1; subst h2; subst h3
    simpa [StmtList.append] using StmtList.interpret_of_returning fuel post c hret
  | .cons s rest, fuel, c, pre', c₁, w, post, h, hret => by
    by_cases hr : c.isReturning
    · simp [StmtList.interpret, hr] at h
      obtain ⟨h1, h2, h3⟩ := h
      subst h1; subst h2; subst h3
      exact StmtList.interpret_of_returning fuel _ c hr
    · have hr' : c.isReturning = false := by simpa using hr
      cases hs : Statement.interpret fuel s c with
      | ok t =>
        obtain ⟨s', c', w₀⟩ := t
        cases hrest : StmtList.interpret fuel rest c' with
        | ok t' =>
          obtain ⟨rest', c'', w₁⟩ := t'
          simp [StmtList.interpret, hr', hs, hrest] at h
          obtain ⟨h1, h2, h3⟩ := h
          subst_eqs
          have hih := StmtList.interpret_append_of_returning rest fuel c' rest'
            _ w₁ post hrest hret
          simp [StmtList.append, StmtList.interpret, hr', hs, hih]
        | fault e => simp [StmtList.interpret, hr', hs, hrest] at h
        | timeout => simp [StmtList.interpret, hr', hs, hrest] at h
      | fault e => simp [StmtList.interpret, hr', hs] at h
      | timeout => simp [StmtList.interpret, hr', hs] at h

/-- Claim C7: a return statement first evaluates its expression into
`retVal` and then sets `isReturning`; a statement block stops before
every statement once `isReturning` holds, so no statement after a
returning prefix is interpreted. -/
theorem claim_C7_return_short_circuit :
    (∀ (fuel : Nat) (e : Expr) (c : Context) (v : Nat) (e' : Expr)
        (c' : Context) (w : Nat),
      Expr.evaluate e c = .ok (v, e', c', w) →
      Statement.interpret fuel (.returnStmt e) c =
        .ok (.returnStmt e', { c' with retVal := v, isReturning := true }, w + 1)) ∧
    (∀ (fuel : Nat) (sl : StmtList) (c : Context), c.isReturning = true →
      StmtList.interpret fuel sl c = .ok (sl, c, 0)) ∧
    (∀ (fuel : Nat) (pre post : StmtList) (c : Context) (pre' : StmtList)
        (c₁ : Context) (w : Nat),
      StmtList.interpret fuel pre c = .ok (pre', c₁, w) →
      c₁.isReturning = true →
      StmtList.interpret fuel (pre.append post) c = .ok (pre'.append post, c₁, w)) := by
  refine ⟨?_, StmtList.interpret_of_returning,
    fun fuel pre post c pre' c₁ w h hret =>
      StmtList.interpret_append_of_returning pre fuel c pre' c₁ w post h hret⟩
  intro fuel e c v e' c' w heval
  simp [Statement.interpret, heval]

/-- Claim C7 witness: after `return 1;`, an appended statement is not
interpreted: the block's result is the prefix's result. -/
theorem claim_C7_witness :
    StmtList.interpret 1
      ((StmtList.cons (.returnStmt (.mk 0 (.number 1))) .nil).append
        (.cons (.declNoInit "z") .nil))
      { globalSymbols := [], symbols := [], store := [], heap := [],
        nextPtr := 0, retVal := 0, isReturning := false } =
      .ok ((StmtList.cons (.returnStmt (.mk 9 (.number 1))) .nil).append
        (.cons (.declNoInit "z") .nil),
        { globalSymbols := [], symbols := [], store := [], heap := [],
          nextPtr := 0, retVal := 9, isReturning := true }, 2) := by
  have hc : createSmallInteger 1 = 9 := rfl
  have h : StmtList.interpret 1
      (StmtList.cons (.returnStmt (.mk 0 (.number 1))) .nil)
      { globalSymbols := [], symbols := [], store := [], heap := [],
        nextPtr := 0, retVal := 0, isReturning := false } =
      .ok (StmtList.cons (.returnStmt (.mk 9 (.number 1))) .nil,
        { globalSymbols := [], symbols := [], store := [], heap := [],
          nextPtr := 0, retVal := 9, isReturning := true }, 2) := by
    simp [StmtList.interpret, Statement.interpret, Expr.evaluate,
      ExprCore.evaluateExpr, Expr.isConstantExpression,
      ExprCore.isConstantExpression, hc]
  exact claim_C7_return_short_circuit.2.2 1 _ _ _ _ _ _ h rfl

/-- Claim C8: `WhileLoop::interpret` never tests `isReturning` in its loop
header.  After a return in the body sets the flag, the loop re-evaluates
its condition and re-enters the body (whose block short-circuits at
once); with a condition that stays true — here a variable the body never
changes — the loop never terminates: it exhausts any iteration budget. -/
theorem claim_C8_while_ignores_return :
    ∀ (fuel : Nat) (c : Context) (x : String) (a : Nat),
      c.lookupSymbol x = some a →
      conditionTruthy (readCell c.store a) = true →
      Statement.interpret fuel
        (.whileLoop (.mk 0 (.varRef x))
          (.cons (.returnStmt (.mk 0 (.varRef x))) .nil)) c = .timeout := by
  intro fuel
  induction fuel with
  | zero =>
    intro c x a hlook htr
    simp [Statement.interpret]
  | succ fuel ih =>
    intro c x a hlook htr
    have heval : Expr.evaluate (.mk 0 (.varRef x)) c =
        .ok (readCell c.store a, .mk 0 (.varRef x), c, 1) := by
      simp [Expr.evaluate, ExprCore.evaluateExpr, hlook,
        Expr.isConstantExpression, ExprCore.isConstantExpression]
    by_cases hr : c.isReturning
    · have hbody := StmtList.interpret_of_returning (fuel + 1)
        (.cons (.returnStmt (.mk 0 (.varRef x))) .nil) c hr
      simp [Statement.interpret, heval, htr, hbody, ih c x a hlook htr]
    · have hr' : c.isReturning = false := by simpa using hr
      have hbody : StmtList.interpret (fuel + 1)
          (.cons (.returnStmt (.mk 0 (.varRef x))) .nil) c =
          .ok (.cons (.returnStmt (.mk 0 (.varRef x))) .nil,
            { c with retVal := readCell c.store a, isReturning := true }, 2) := by
        simp [StmtList.interpret, Statement.interpret, heval, hr',
          StmtList.interpret_of_returning]
      have hlook' : Context.lookupSymbol
          { c with retVal := readCell c.store a, isReturning := true } x = some a := by
        simpa [Context.lookupSymbol] using hlook
      simp [Statement.interpret, heval, htr, hbody, ih _ x a hlook' htr]

/-- Claim C8 witness: `while (x) { return x; }` with global `x = 9` times
out at a concrete iteration budget. -/
theorem claim_C8_witness :
    Statement.interpret 2
      (.whileLoop (.mk 0 (.varRef "x"))
        (.cons (.returnStmt (.mk 0 (.varRef "x"))) .nil))
      { globalSymbols := [("x", 0)], symbols := [], store := [9], heap := [],
        nextPtr := 0, retVal := 0, isReturning := false } = .timeout :=
  claim_C8_while_ignores_return 2
    { globalSymbols := [("x", 0)], symbols := [], store := [9], heap := [],
      nextPtr := 0, retVal := 0, isReturning := false }
    "x" 0 rfl (by decide)

lemma ClosureDecl.check_preserves_tiered_state (d : ClosureDecl) :
    d.check.executionCount = d.executionCount ∧
    d.check.compiledClosure = d.compiledClosure := by
  obtain ⟨n, p, b, ec, cc, ch, bv, ds⟩ := d
  by_cases h : ch <;>
    simp [ClosureDecl.check, h, ClosureDecl.executionCount, ClosureDecl.compiledClosure]

/-- Claim C1 (failing-input evaluation): every interpreted entry
increments `executionCount`; an entry whose incremented count is below
the threshold with nothing compiled runs the tree-walking interpreter;
the entry whose incremented count equals the threshold invokes the
compiler once and stores the result.  On the method path the claim's
schedule then holds: whenever `compiledClosure` is non-null the entry
invokes it and returns its result without interpreting the body.  On the
closure path it does not: `interpretClosure` has no early return, so such
an entry invokes the compiled code but discards its result, still
interprets the body, and returns the interpreter's value. -/
theorem claim_C1_closure_entry_diverges :
    ∀ d : ClosureDecl,
      ((interpretClosureEntry d).1.executionCount = d.executionCount + 1 ∧
       (interpretMethodEntry d).1.executionCount = d.executionCount + 1) ∧
      (d.compiledClosure = none → d.executionCount + 1 ≠ compileThreshold →
        (interpretClosureEntry d).2 = ⟨false, false, true, false⟩ ∧
        (interpretMethodEntry d).2 = ⟨false, false, true, false⟩ ∧
        (interpretClosureEntry d).1.compiledClosure = none ∧
        (interpretMethodEntry d).1.compiledClosure = none) ∧
      (d.compiledClosure = none → d.executionCount + 1 = compileThreshold →
        (interpretClosureEntry d).1.compiledClosure = some () ∧
        (interpretMethodEntry d).1.compiledClosure = some () ∧
        (interpretMethodEntry d).2 = ⟨true, true, false, true⟩ ∧
        (interpretClosureEntry d).2 = ⟨true, true, true, false⟩) ∧
      (d.compiledClosure = some () → d.executionCount + 1 ≠ compileThreshold →
        (interpretMethodEntry d).2 = ⟨false, true, false, true⟩ ∧
        (interpretClosureEntry d).2 = ⟨false, true, true, false⟩) := by
  intro d
  obtain ⟨hec, hcc⟩ := ClosureDecl.check_preserves_tiered_state d
  obtain ⟨n, p, b, ec, cc, ch, bv, ds⟩ := d
  rcases hck : (ClosureDecl.mk n p b ec cc ch bv ds).check with
    ⟨n', p', b', ec', cc', ch', bv', ds'⟩
  rw [hck] at hec hcc
  simp only [ClosureDecl.executionCount, ClosureDecl.compiledClosure] at hec hcc
  rw [hec, hcc] at hck
  by_cases hth : ec + 1 = compileThreshold
  · have hbeq : ((ec + 1) == compileThreshold) = true := by simp [hth]
    have hcl : interpretClosureEntry (.mk n p b ec cc ch bv ds) =
        (.mk n p b (ec + 1) (some ()) ch bv ds, ⟨true, true, true, false⟩) := by
      simp [interpretClosureEntry, ClosureDecl.withExecutionCount,
        ClosureDecl.withCompiled, ClosureDecl.executionCount,
        ClosureDecl.compiledClosure, hbeq]
    have hme : interpretMethodEntry (.mk n p b ec cc ch bv ds) =
        (.mk n' p' b' (ec + 1) (some ()) ch' bv' ds', ⟨true, true, false, true⟩) := by
      simp [interpretMethodEntry, hck, ClosureDecl.withExecutionCount,
        ClosureDecl.withCompiled, ClosureDecl.executionCount,
        ClosureDecl.compiledClosure, hbeq]
    refine ⟨⟨?_, ?_⟩, ?_, ?_, ?_⟩
    · simp [hcl, ClosureDecl.executionCount]
    · simp [hme, ClosureDecl.executionCount]
    · intro _ hne
      exact absurd hth (by simpa [ClosureDecl.executionCount] using hne)
    · intro _ _
      simp [hcl, hme, ClosureDecl.compiledClosure]
    · intro _ hne
      exact absurd hth (by simpa [ClosureDecl.executionCount] using hne)
  · have hbeq : ((ec + 1) == compileThreshold) = false := by simp [hth]
    have hcl : interpretClosureEntry (.mk n p b ec cc ch bv ds) =
        (.mk n p b (ec + 1) cc ch bv ds, ⟨false, cc.isSome, true, false⟩) := by
      simp [interpretClosureEntry, ClosureDecl.withExecutionCount,
        ClosureDecl.withCompiled, ClosureDecl.executionCount,
        ClosureDecl.compiledClosure, hbeq]
    have hme : interpretMethodEntry (.mk n p b ec cc ch bv ds) =
        (.mk n' p' b' (ec + 1) cc ch' bv' ds',
          if cc.isSome then ⟨false, true, false, true⟩
          else ⟨false, false, true, false⟩) := by
      cases cc <;>
        simp [interpretMethodEntry, hck, ClosureDecl.withExecutionCount,
          ClosureDecl.withCompiled, ClosureDecl.executionCount,
          ClosureDecl.compiledClosure, hbeq]
    refine ⟨⟨?_, ?_⟩, ?_, ?_, ?_⟩
    · simp [hcl, ClosureDecl.executionCount]
    · simp [hme, ClosureDecl.executionCount]
    · intro hnone _
      simp only [ClosureDecl.compiledClosure] at hnone
      subst hnone
      simp [hcl, hme, ClosureDecl.compiledClosure]
    · intro _ hth'
      exact absurd (by simpa [ClosureDecl.executionCount] using hth') hth
    · intro hsome _
      simp only [ClosureDecl.compiledClosure] at hsome
      subst hsome
      simp [hcl, hme]

/-- Claim C1 witness: the concrete 10th entry of `fun g() {}` — nine
earlier entries already counted — compiles, and on the closure path the
compiled call's result is discarded while the body is still interpreted
(contrast the method path, which returns the compiled result at once). -/
theorem claim_C1_witness :
    (interpretClosureEntry (.mk "g" [] .nil 9 none true [] [])).2 =
      ⟨true, true, true, false⟩ ∧
    (interpretMethodEntry (.mk "g" [] .nil 9 none true [] [])).2 =
      ⟨true, true, false, true⟩ :=
  ⟨((claim_C1_closure_entry_diverges (.mk "g" [] .nil 9 none true [] [])).2.2.1
      rfl rfl).2.2.2,
   ((claim_C1_closure_entry_diverges (.mk "g" [] .nil 9 none true [] [])).2.2.1
      rfl rfl).2.2.1⟩

/-!  ## Lemmas for constant-expression caching -/

mutual

/-- `evaluate` does not change whether a node is a constant expression
(it only fills caches and analysis state). -/
lemma Expr.evaluate_preserves_const :
    ∀ (e : Expr) (c : Context) (r : Nat) (e' : Expr) (c' : Context) (w : Nat),
      Expr.evaluate e c = .ok (r, e', c', w) →
      Expr.isConstantExpression e' = Expr.isConstantExpression e
  | .mk cache core, c, r, e', c', w, h => by
    by_cases hc : cache ≠ 0
    · simp [Expr.evaluate, hc] at h
      obtain ⟨-, h2, -, -⟩ := h
      rw [← h2]
    · simp only [ne_eq, not_not] at hc
      subst hc
      simp only [Expr.evaluate] at h
      cases hcore : ExprCore.evaluateExpr core c with
      | error e₀ => rw [hcore] at h; simp at h
      | ok t =>
        obtain ⟨r₀, core', c₀, w₀⟩ := t
        have hpres := ExprCore.evaluateExpr_preserves_const core c r₀ core' c₀ w₀ hcore
        rw [hcore] at h
        by_cases hconst : ExprCore.isConstantExpression core' = true
        · simp [Expr.isConstantExpression, hconst] at h
          obtain ⟨-, h2, -, -⟩ := h
          rw [← h2]
          simpa [Expr.isConstantExpression] using hpres
        · simp [Expr.isConstantExpression, hconst] at h
          obtain ⟨-, h2, -, -⟩ := h
          rw [← h2]
          simpa [Expr.isConstantExpression] using hpres

lemma ExprCore.evaluateExpr_preserves_const :
    ∀ (core : ExprCore) (c : Context) (r : Nat) (core' : ExprCore)
      (c' : Context) (w : Nat),
      ExprCore.evaluateExpr core c = .ok (r, core', c', w) →
      ExprCore.isConstantExpression core' = ExprCore.isConstantExpression core
  | .number v, c, r, core', c', w, h => by
    simp [ExprCore.evaluateExpr] at h
    obtain ⟨-, h2, -, -⟩ := h
    rw [← h2]
  | .stringLiteral s, c, r, core', c', w, h => by
    simp [ExprCore.evaluateExpr] at h
    obtain ⟨-, h2, -, -⟩ := h
    rw [← h2]
  | .varRef x, c, r, core', c', w, h => by
    cases hl : c.lookupSymbol x <;> simp [ExprCore.evaluateExpr, hl] at h
    obtain ⟨-, h2, -, -⟩ := h
    rw [← h2]
  | .call callee m args, c, r, core', c', w, h => by
    simp [ExprCore.evaluateExpr] at h
  | .closureDecl d, c, r, core', c', w, h => by
    simp only [ExprCore.evaluateExpr] at h
    split at h
    · simp at h
    · simp at h
      obtain ⟨-, h2, -, -⟩ := h
      rw [← h2]
      simp [ExprCore.isConstantExpression]
  | .binOp k l rr, c, r, core', c', w, h => by
    simp only [ExprCore.evaluateExpr] at h
    split at h
    · simp at h
    · rename_i t₁ lv l' c₁ w₁ hl
      split at h
      · simp at h
      · rename_i t₂ rv r' c₂ w₂ hr
        split at h
        · simp at h
          obtain ⟨-, h2, -, -⟩ := h
          rw [← h2]
          simp [ExprCore.isConstantExpression,
            Expr.evaluate_preserves_const l c lv l' c₁ w₁ hl,
            Expr.evaluate_preserves_const rr c₁ rv r' c₂ w₂ hr]
        · simp at h

end

/-- Any successful `evaluateExpr` dispatch on a constant-expression node
produces a non-null word: encoded small integers are odd and heap
pointers are non-null. -/
lemma ExprCore.evaluateExpr_ok_ne_zero :
    ∀ (core : ExprCore) (c : Context) (r : Nat) (core' : ExprCore)
      (c' : Context) (w : Nat),
      ExprCore.isConstantExpression core = true →
      ExprCore.evaluateExpr core c = .ok (r, core', c', w) →
      r ≠ 0 := by
  intro core c r core' c' w hconst h
  cases core with
  | number v =>
    simp [ExprCore.evaluateExpr] at h
    have := createSmallInteger_mod8 v
    omega
  | stringLiteral s =>
    simp [ExprCore.evaluateExpr] at h
    omega
  | binOp k l rr =>
    simp only [ExprCore.evaluateExpr] at h
    split at h
    · simp at h
    · split at h
      · simp at h
      · split at h
        · simp at h
          obtain ⟨h1, -, -, -⟩ := h
          rw [← h1]
          exact createSmallInteger_ne_zero _
        · simp at h
  | varRef x => simp [ExprCore.isConstantExpression] at hconst
  | call callee m args => simp [ExprCore.isConstantExpression] at hconst
  | closureDecl d => simp [ExprCore.isConstantExpression] at hconst

/-- Any successful evaluation of a constant expression produces a
non-null word, so the cache-emptiness test never mistakes a cached
value. -/
lemma Expr.evaluate_const_ne_zero :
    ∀ (cache : Nat) (core : ExprCore) (c : Context) (r : Nat) (e' : Expr)
      (c' : Context) (w : Nat),
      (Expr.mk cache core).isConstantExpression = true →
      Expr.evaluate (.mk cache core) c = .ok (r, e', c', w) →
      r ≠ 0 := by
  intro cache core c r e' c' w hconst h
  by_cases hc : cache ≠ 0
  · simp [Expr.evaluate, hc] at h
    omega
  · simp only [ne_eq, not_not] at hc
    subst hc
    simp only [Expr.evaluate, ne_eq, not_true_eq_false, not_false_eq_true,
      if_neg, if_false] at h
    cases hcore : ExprCore.evaluateExpr core c with
    | error e₀ => rw [hcore] at h; simp at h
    | ok t =>
      obtain ⟨r₀, core', c₀, w₀⟩ := t
      rw [hcore] at h
      have hok := ExprCore.evaluateExpr_ok_ne_zero core c r₀ core' c₀ w₀
        (by simpa [Expr.isConstantExpression] using hconst) hcore
      by_cases hcst : (Expr.mk 0 core').isConstantExpression = true
      · simp [hcst] at h
        omega
      · simp [hcst] at h
        omega

/-- Claim C4: Numbers and string literals are always constant
expressions, a binary operation is constant iff both operands are, and
variable references are not.  A non-empty cache is returned identically
with no `evaluateExpr` dispatch and no state change; the first successful
evaluation of a constant expression stores a non-null result in the
node's cell, after which every evaluation returns that identity-equal
value with zero dispatches; a non-constant node never populates its cache
and dispatches `evaluateExpr` on every call. -/
theorem claim_C4_constant_expression_cache :
    (∀ (cache : Nat) (v : Int),
      (Expr.mk cache (.number v)).isConstantExpression = true) ∧
    (∀ (cache : Nat) (s : String),
      (Expr.mk cache (.stringLiteral s)).isConstantExpression = true) ∧
    (∀ (cache : Nat) (k : BinOpKind) (l r : Expr),
      (Expr.mk cache (.binOp k l r)).isConstantExpression =
        (l.isConstantExpression && r.isConstantExpression)) ∧
    (∀ (cache : Nat) (x : String),
      (Expr.mk cache (.varRef x)).isConstantExpression = false) ∧
    (∀ (cache : Nat) (core : ExprCore) (c : Context), cache ≠ 0 →
      Expr.evaluate (.mk cache core) c = .ok (cache, .mk cache core, c, 0)) ∧
    (∀ (core : ExprCore) (c : Context) (r : Nat) (e' : Expr) (c' : Context) (w : Nat),
      (Expr.mk 0 core).isConstantExpression = true →
      Expr.evaluate (.mk 0 core) c = .ok (r, e', c', w) →
      r ≠ 0 ∧ e'.cache = r ∧
      (∀ c₂ : Context, Expr.evaluate e' c₂ = .ok (r, e', c₂, 0))) ∧
    (∀ (core : ExprCore) (c : Context) (r : Nat) (e' : Expr) (c' : Context) (w : Nat),
      (Expr.mk 0 core).isConstantExpression = false →
      Expr.evaluate (.mk 0 core) c = .ok (r, e', c', w) →
      e'.cache = 0 ∧ 1 ≤ w) := by
  have hcached : ∀ (cache : Nat) (core : ExprCore) (c : Context), cache ≠ 0 →
      Expr.evaluate (.mk cache core) c = .ok (cache, .mk cache core, c, 0) := by
    intro cache core c hc
    simp [Expr.evaluate, hc]
  refine ⟨fun _ _ => rfl, fun _ _ => rfl,
    fun _ _ _ _ => rfl, fun _ _ => rfl, hcached, ?_, ?_⟩
  · intro core c r e' c' w hconst h
    have hne := Expr.evaluate_const_ne_zero 0 core c r e' c' w hconst h
    simp only [Expr.evaluate] at h
    cases hcore : ExprCore.evaluateExpr core c with
    | error e₀ => rw [hcore] at h; simp at h
    | ok t =>
      obtain ⟨r₀, core', c₀, w₀⟩ := t
      rw [hcore] at h
      have hpres := ExprCore.evaluateExpr_preserves_const core c r₀ core' c₀ w₀ hcore
      have hconst' : ExprCore.isConstantExpression core' = true := by
        simp only [Expr.isConstantExpression] at hconst
        rw [hpres, hconst]
      simp [Expr.isConstantExpression, hconst'] at h
      obtain ⟨h1, h2, -, -⟩ := h
      subst h1
      refine ⟨hne, ?_, ?_⟩
      · rw [← h2]; rfl
      · intro c₂
        rw [← h2]
        exact hcached r₀ core' c₂ hne
  · intro core c r e' c' w hconst h
    simp only [Expr.evaluate] at h
    cases hcore : ExprCore.evaluateExpr core c with
    | error e₀ => rw [hcore] at h; simp at h
    | ok t =>
      obtain ⟨r₀, core', c₀, w₀⟩ := t
      rw [hcore] at h
      have hpres := ExprCore.evaluateExpr_preserves_const core c r₀ core' c₀ w₀ hcore
      have hconst' : ExprCore.isConstantExpression core' = false := by
        simp only [Expr.isConstantExpression] at hconst
        rw [hpres, hconst]
      simp [Expr.isConstantExpression, hconst'] at h
      obtain ⟨-, h2, -, h4⟩ := h
      constructor
      · rw [← h2]; rfl
      · omega

/-- Claim C4 witness: a node with a populated cache returns the cached
value identically, with no dispatch and no state change. -/
theorem claim_C4_witness :
    Expr.evaluate (.mk 9 (.number 1))
      { globalSymbols := [], symbols := [], store := [], heap := [],
        nextPtr := 0, retVal := 0, isReturning := false } =
      .ok (9, .mk 9 (.number 1),
        { globalSymbols := [], symbols := [], store := [], heap := [],
          nextPtr := 0, retVal := 0, isReturning := false }, 0) :=
  claim_C4_constant_expression_cache.2.2.2.2.1 9 (.number 1) _ (by norm_num)

/-!  ## Lemmas for closure construction (claim C2) -/

lemma tableFind_mem : ∀ (t : SymbolTable) (n : String) (a : Nat),
    tableFind t n = some a → (n, a) ∈ t
  | [], n, a, h => by simp [tableFind] at h
  | (k, v) :: rest, n, a, h => by
    by_cases hk : k = n
    · subst hk
      simp [tableFind] at h
      simp [h]
    · simp [tableFind, hk] at h
      simp [tableFind_mem rest n a h]

lemma tableFind_tableSet_self :
    ∀ (t : SymbolTable) (n : String) (a : Nat),
      tableFind (tableSet t n a) n = some a
  | [], n, a => by simp [tableSet, tableFind]
  | (k, v) :: rest, n, a => by
    by_cases hk : k = n
    · simp [tableSet, tableFind, hk]
    · simp [tableSet, tableFind, hk, tableFind_tableSet_self rest n a]

lemma tableFind_tableSet_ne :
    ∀ (t : SymbolTable) (n m : String) (a : Nat), m ≠ n →
      tableFind (tableSet t n a) m = tableFind t m
  | [], n, m, a, hne => by simp [tableSet, tableFind, Ne.symm hne]
  | (k, v) :: rest, n, m, a, hne => by
    by_cases hk : k = n
    · subst hk
      have hkm : ¬ (k = m) := fun h => hne h.symm
      simp [tableSet, tableFind, hkm]
    · simp only [tableSet, if_neg hk]
      by_cases hkm : k = m
      · simp [tableFind, hkm]
      · simp [tableFind, hkm, tableFind_tableSet_ne rest n m a hne]

/-- `lookupSymbol` only reads the symbol tables, not the store, the heap,
the allocator or the return signal. -/
lemma Context.lookupSymbol_congr (c c' : Context) (n : String)
    (hsym : c'.symbols = c.symbols) (hglob : c'.globalSymbols = c.globalSymbols) :
    c'.lookupSymbol n = c.lookupSymbol n := by
  unfold Context.lookupSymbol
  rw [hsym, hglob]

lemma Context.lookupSymbol_lt (c : Context) (hwf : c.wf) (n : String) (a : Nat)
    (h : c.lookupSymbol n = some a) : a < c.store.length := by
  unfold Context.lookupSymbol at h
  cases hs : c.symbols with
  | nil =>
    rw [hs] at h
    simp [topFind] at h
    exact hwf.1 (n, a) (tableFind_mem _ _ _ h)
  | cons top rest =>
    rw [hs] at h
    simp only [topFind] at h
    cases ht : tableFind top n with
    | some a₀ =>
      rw [ht] at h
      simp at h
      subst h
      exact hwf.2 top (by rw [hs]; simp) (n, a₀) (tableFind_mem _ _ _ ht)
    | none =>
      rw [ht] at h
      simp at h
      exact hwf.1 (n, a) (tableFind_mem _ _ _ h)

lemma readCell_append_self (s : List Nat) (v : Nat) :
    readCell (s ++ [v]) s.length = v := by
  simp [readCell]

lemma readCell_set_eq (s : List Nat) (i v : Nat) (h : i < s.length) :
    readCell (s.set i v) i = v := by
  simp [readCell, List.getD, List.getElem?_set_self', h]

lemma readCell_set_ne (s : List Nat) (i a v : Nat) (h : a ≠ i) :
    readCell (s.set i v) a = readCell s a := by
  simp [readCell, List.getD, List.getElem?_set_ne (fun hh => h hh.symm)]

/-- The effect of `Context::setSymbol(name, Obj val)`: the local frames
are untouched; afterwards the name resolves to a cell holding the value —
either the cell it already resolved to, or a freshly appended global
cell — and every resolvable address is an old one or the fresh cell. -/
lemma Context.setSymbolVal_spec (c : Context) (n : String) (v : Nat)
    (hwf : ∀ a, c.lookupSymbol n = some a → a < c.store.length) :
    (c.setSymbolVal n v).symbols = c.symbols ∧
    ((c.setSymbolVal n v).store.length = c.store.length ∨
      (c.setSymbolVal n v).store.length = c.store.length + 1) ∧
    (∃ aₙ, (c.setSymbolVal n v).lookupSymbol n = some aₙ ∧
      readCell (c.setSymbolVal n v).store aₙ = v ∧
      (aₙ < c.store.length ∨ aₙ = c.store.length)) ∧
    (∀ m a, (c.setSymbolVal n v).lookupSymbol m = some a →
      c.lookupSymbol m = some a ∨ a = c.store.length) := by
  cases hl : c.lookupSymbol n with
  | some a₀ =>
    have hset : c.setSymbolVal n v = { c with store := c.store.set a₀ v } := by
      unfold Context.setSymbolVal
      rw [hl]
    have ha₀ : a₀ < c.store.length := hwf a₀ hl
    have hlook : ∀ m, Context.lookupSymbol { c with store := c.store.set a₀ v } m =
        c.lookupSymbol m :=
      fun m => Context.lookupSymbol_congr _ _ m rfl rfl
    rw [hset]
    refine ⟨rfl, Or.inl (by simp), ⟨a₀, ?_, ?_, Or.inl ha₀⟩, ?_⟩
    · rw [hlook n]; exact hl
    · exact readCell_set_eq c.store a₀ v ha₀
    · intro m a hm
      rw [hlook m] at hm
      exact Or.inl hm
  | none =>
    have hset : c.setSymbolVal n v =
        { c with store := c.store ++ [v],
                 globalSymbols := tableSet c.globalSymbols n c.store.length } := by
      unfold Context.setSymbolVal
      rw [hl]
    have htop : topFind c.symbols n = none := by
      unfold Context.lookupSymbol at hl
      cases ht : topFind c.symbols n with
      | some a₀ => rw [ht] at hl; simp at hl
      | none => rfl
    have hglob : tableFind c.globalSymbols n = none := by
      unfold Context.lookupSymbol at hl
      rw [htop] at hl
      simpa using hl
    have hsym2 : ({ c with
        store := c.store ++ [v],
        globalSymbols := tableSet c.globalSymbols n c.store.length } :
        Context).symbols = c.symbols := rfl
    rw [hset]
    refine ⟨rfl, Or.inr (by simp), ⟨c.store.length, ?_, ?_, Or.inr rfl⟩, ?_⟩
    · unfold Context.lookupSymbol
      rw [hsym2, htop]
      simp [tableFind_tableSet_self]
    · exact readCell_append_self c.store v
    · intro m a hm
      unfold Context.lookupSymbol at hm ⊢
      rw [hsym2] at hm
      by_cases hmn : m = n
      · subst hmn
        rw [htop] at hm ⊢
        simp [tableFind_tableSet_self] at hm
        simp [hglob]
        omega
      · cases ht : topFind c.symbols m with
        | some a₀ =>
          rw [ht] at hm
          simp at hm ⊢
          exact Or.inl hm
        | none =>
          rw [ht] at hm
          simp at hm ⊢
          rw [tableFind_tableSet_ne c.globalSymbols n m _ hmn] at hm
          exact Or.inl hm

/-- What the bound-variable copy loop does: it writes the cells
`i, …, i + |vs| − 1` and nothing else, leaving the symbol tables
untouched; the value written for the `j`-th variable is the value of the
cell its name resolves to — provided every resolvable address lies
outside the target region, as well-formedness guarantees at the call
site. -/
lemma copyBoundVars_spec :
    ∀ (vs : List String) (i : Nat) (c cf : Context),
      copyBoundVars vs i c = .ok cf →
      i + vs.length ≤ c.store.length →
      (∀ v ∈ vs, ∀ a, c.lookupSymbol v = some a → a < i ∨ i + vs.length ≤ a) →
      (cf.symbols = c.symbols ∧ cf.globalSymbols = c.globalSymbols ∧
       cf.heap = c.heap ∧ cf.nextPtr = c.nextPtr ∧
       cf.store.length = c.store.length) ∧
      (∀ a, a < i ∨ i + vs.length ≤ a → readCell cf.store a = readCell c.store a) ∧
      (∀ j, ∀ hj : j < vs.length, ∃ a,
        c.lookupSymbol (vs.get ⟨j, hj⟩) = some a ∧
        readCell cf.store (i + j) = readCell c.store a)
  | [], i, c, cf, h, hlen, haddr => by
    simp [copyBoundVars] at h
    subst h
    exact ⟨⟨rfl, rfl, rfl, rfl, rfl⟩, fun a _ => rfl, fun j hj => absurd hj (by simp)⟩
  | v :: rest, i, c, cf, h, hlen, haddr => by
    simp only [copyBoundVars] at h
    split at h
    · simp at h
    · rename_i a₀ heq
      simp only [List.length_cons] at hlen
      have hi : i < c.store.length := by omega
      have hlen' : (i + 1) + rest.length ≤
          ({ c with store := c.store.set i (readCell c.store a₀) } : Context).store.length := by
        simp
        omega
      have hlookmid : ∀ m, Context.lookupSymbol
          { c with store := c.store.set i (readCell c.store a₀) } m =
          c.lookupSymbol m :=
        fun m => Context.lookupSymbol_congr _ _ m rfl rfl
      have haddr' : ∀ v' ∈ rest, ∀ a,
          Context.lookupSymbol
            { c with store := c.store.set i (readCell c.store a₀) } v' = some a →
          a < i + 1 ∨ (i + 1) + rest.length ≤ a := by
        intro v' hv' a ha
        rw [hlookmid v'] at ha
        have := haddr v' (by simp [hv']) a ha
        simp at this
        omega
      obtain ⟨hpres, hout, hslots⟩ :=
        copyBoundVars_spec rest (i + 1) _ cf h hlen' haddr'
      simp only [] at hpres hout hslots
      refine ⟨⟨?_, ?_, ?_, ?_, ?_⟩, ?_, ?_⟩
      · rw [hpres.1]
      · rw [hpres.2.1]
      · rw [hpres.2.2.1]
      · rw [hpres.2.2.2.1]
      · rw [hpres.2.2.2.2]; simp
      · intro a ha
        simp only [List.length_cons] at ha
        have h₁ : readCell cf.store a =
            readCell (c.store.set i (readCell c.store a₀)) a :=
          hout a (by omega)
        rw [h₁, readCell_set_ne c.store i a _ (by omega)]
      · intro j hj
        cases j with
        | zero =>
          refine ⟨a₀, ?_, ?_⟩
          · simpa [List.get] using heq
          · have h₁ : readCell cf.store i =
                readCell (c.store.set i (readCell c.store a₀)) i :=
              hout i (by omega)
            simp only [Nat.add_zero]
            rw [h₁, readCell_set_eq c.store i _ hi]
        | succ j =>
          simp only [List.length_cons] at hj
          obtain ⟨a, ha, hread⟩ := hslots j (by omega)
          rw [hlookmid] at ha
          refine ⟨a, ?_, ?_⟩
          · simpa [List.get] using ha
          · have hane : a ≠ i := by
              have hmem := haddr (rest.get ⟨j, by omega⟩) (by simp [List.get_mem]) a ha
              simp only [List.length_cons] at hmem
              omega
            rw [show i + (j + 1) = (i + 1) + j by omega, hread,
              readCell_set_ne c.store i a _ hane]

/-- Claim C2 (amended): when a `ClosureDecl` is evaluated, the closure's
own name is bound in the current scope to the new closure value before
the bound variables are copied; each bound-variable slot then receives
the value, obtained by symbol lookup in that post-binding context, of its
variable; consequently a closure whose own name is among its bound
variables captures the new closure value itself (not the name's previous
value). -/
theorem claim_C2_bind_name_before_copy :
    ∀ (d : ClosureDecl) (c : Context) (ptr : Nat) (node' : ExprCore)
      (c₃ : Context) (w : Nat),
      Context.wf c →
      ExprCore.evaluateExpr (.closureDecl d) c = .ok (ptr, node', c₃, w) →
      ptr = 8 * (c.nextPtr + 1) ∧
      (∀ j, ∀ hj : j < d.check.boundVars.length, ∃ a,
        (mkClosureCtx d c).lookupSymbol (d.check.boundVars.get ⟨j, hj⟩) = some a ∧
        readCell c₃.store (c.store.length + j) =
          readCell (mkClosureCtx d c).store a) ∧
      (∀ j, ∀ hj : j < d.check.boundVars.length,
        d.check.boundVars.get ⟨j, hj⟩ = d.check.name →
        readCell c₃.store (c.store.length + j) = ptr) := by
  intro d c ptr node' c₃ w hwf heval
  have heq : ExprCore.evaluateExpr (.closureDecl d) c =
      (match copyBoundVars d.check.boundVars c.store.length (mkClosureCtx d c) with
       | .error e => .error e
       | .ok cf => .ok (8 * (c.nextPtr + 1), .closureDecl d.check, cf, 0)) := rfl
  rw [heq] at heval
  cases hcopy : copyBoundVars d.check.boundVars c.store.length (mkClosureCtx d c) with
  | error e => rw [hcopy] at heval; simp at heval
  | ok cf =>
    rw [hcopy] at heval
    simp at heval
    obtain ⟨hptr, hnode, hc₃, hw⟩ := heval
    -- the allocation context
    have hc₁sym : ({ c with
        store := c.store ++ List.replicate d.check.boundVars.length 0,
        nextPtr := c.nextPtr + 1,
        heap := (8 * (c.nextPtr + 1),
          .closureObj (createSmallInteger (d.check.parameters.length : Int))
            (match d.check.compiledClosure with
             | some _ => ClosureEntry.compiledFn
             | none => ClosureEntry.trampoline d.check.parameters.length)
            c.store.length d.check.boundVars.length) :: c.heap } :
        Context).symbols = c.symbols := rfl
    generalize hc₁ : ({ c with
        store := c.store ++ List.replicate d.check.boundVars.length 0,
        nextPtr := c.nextPtr + 1,
        heap := (8 * (c.nextPtr + 1),
          .closureObj (createSmallInteger (d.check.parameters.length : Int))
            (match d.check.compiledClosure with
             | some _ => ClosureEntry.compiledFn
             | none => ClosureEntry.trampoline d.check.parameters.length)
            c.store.length d.check.boundVars.length) :: c.heap } :
        Context) = c₁ at hc₁sym
    have hmk : mkClosureCtx d c = c₁.setSymbolVal d.check.name (8 * (c.nextPtr + 1)) := by
      rw [← hc₁]; rfl
    have hc₁glob : c₁.globalSymbols = c.globalSymbols := by rw [← hc₁]
    have hc₁store : c₁.store = c.store ++ List.replicate d.check.boundVars.length 0 := by
      rw [← hc₁]
    have hc₁len : c₁.store.length = c.store.length + d.check.boundVars.length := by
      rw [hc₁store]; simp
    have hc₁look : ∀ m, c₁.lookupSymbol m = c.lookupSymbol m :=
      fun m => Context.lookupSymbol_congr c c₁ m hc₁sym hc₁glob
    have hwf₁ : ∀ a, c₁.lookupSymbol d.check.name = some a → a < c₁.store.length := by
      intro a ha
      rw [hc₁look] at ha
      have := Context.lookupSymbol_lt c hwf _ a ha
      omega
    obtain ⟨hsym₂, hlen₂, ⟨aₙ, hlookn, hcelln, haₙ⟩, hold⟩ :=
      Context.setSymbolVal_spec c₁ d.check.name (8 * (c.nextPtr + 1)) hwf₁
    rw [← hmk] at hsym₂ hlen₂ hlookn hcelln hold
    have hlenmk : c.store.length + d.check.boundVars.length ≤ (mkClosureCtx d c).store.length := by
      rcases hlen₂ with h | h <;> omega
    have haddr : ∀ v ∈ d.check.boundVars, ∀ a,
        (mkClosureCtx d c).lookupSymbol v = some a →
        a < c.store.length ∨ c.store.length + d.check.boundVars.length ≤ a := by
      intro v _ a ha
      rcases hold v a ha with h | h
      · rw [hc₁look] at h
        exact Or.inl (Context.lookupSymbol_lt c hwf _ a h)
      · right; omega
    obtain ⟨hpres, hout, hslots⟩ :=
      copyBoundVars_spec d.check.boundVars c.store.length (mkClosureCtx d c) cf
        hcopy hlenmk haddr
    subst hc₃
    refine ⟨hptr.symm, hslots, ?_⟩
    intro j hj hname
    obtain ⟨a, ha, hread⟩ := hslots j hj
    rw [hname] at ha
    rw [hlookn] at ha
    injection ha with ha
    rw [hread, ← ha, hcelln, hptr]

/-- Claim C2 counterexample: evaluating `fun f() { return f; }` in a
context where the global `f` currently holds the encoded small integer 9,
the closure's bound-variable region (store slot 1, the slot for bound
variable `f`) ends up holding 8 — the new closure's own pointer — and not
9, the value the name had before the closure's name was bound.  So the
copy of bound variables happens after the self-name binding, not before
it as the claim states. -/
theorem claim_C2_counterexample :
    ExprCore.evaluateExpr
      (.closureDecl (.mk "f" [] (.cons (.returnStmt (.mk 0 (.varRef "f"))) .nil)
        0 none false [] []))
      { globalSymbols := [("f", 0)], symbols := [], store := [9], heap := [],
        nextPtr := 0, retVal := 0, isReturning := false } =
      .ok (8,
        .closureDecl (.mk "f" [] (.cons (.returnStmt (.mk 0 (.varRef "f"))) .nil)
          0 none true ["f"] []),
        { globalSymbols := [("f", 0)], symbols := [], store := [8, 8],
          heap := [(8, .closureObj 1 (.trampoline 0) 1 1)], nextPtr := 1,
          retVal := 0, isReturning := false }, 0) ∧
    readCell [8, 8] 1 = 8 ∧ (8 : Nat) ≠ 9 :=
  ⟨rfl, rfl, by norm_num⟩

/-- Witness for C2: the amended theorem applied at the self-referencing
closure `fun f() { return f; }` in the concrete one-global context. -/
theorem claim_C2_witness :
    readCell [8, 8] 1 = 8 :=
  (claim_C2_bind_name_before_copy
    (.mk "f" [] (.cons (.returnStmt (.mk 0 (.varRef "f"))) .nil) 0 none false [] [])
    { globalSymbols := [("f", 0)], symbols := [], store := [9], heap := [],
      nextPtr := 0, retVal := 0, isReturning := false }
    8
    (.closureDecl (.mk "f" [] (.cons (.returnStmt (.mk 0 (.varRef "f"))) .nil)
      0 none true ["f"] []))
    { globalSymbols := [("f", 0)], symbols := [], store := [8, 8],
      heap := [(8, .closureObj 1 (.trampoline 0) 1 1)], nextPtr := 1,
      retVal := 0, isReturning := false }
    0 (by decide) rfl).2.2 0 (by decide) rfl

/-!  ## Lemmas for capture analysis (claim C5) -/

lemma setInsert_mem (s : List String) (a x : String) :
    x ∈ setInsert s a ↔ x = a ∨ x ∈ s := by
  unfold setInsert
  split
  · rename_i h
    constructor
    · exact Or.inr
    · rintro (rfl | hx)
      · exact h
      · exact hx
  · simp

lemma setInsertAll_mem : ∀ (l s : List String) (x : String),
    x ∈ setInsertAll s l ↔ x ∈ s ∨ x ∈ l
  | [], s, x => by simp [setInsertAll]
  | a :: l, s, x => by
    have hrec := setInsertAll_mem l (setInsert s a) x
    unfold setInsertAll at hrec ⊢
    simp only [List.foldl_cons]
    rw [hrec, setInsert_mem]
    simp only [List.mem_cons]
    tauto

lemma setErase_mem (s : List String) (a x : String) :
    x ∈ setErase s a ↔ x ∈ s ∧ x ≠ a := by
  simp [setErase]

lemma foldl_setErase_mem : ∀ (l s : List String) (x : String),
    x ∈ l.foldl setErase s ↔ x ∈ s ∧ x ∉ l
  | [], s, x => by simp
  | a :: l, s, x => by
    simp only [List.foldl_cons]
    rw [foldl_setErase_mem l (setErase s a) x, setErase_mem]
    simp only [List.mem_cons]
    tauto

/-- `check` never changes the closure's name. -/
lemma ClosureDecl.check_name : ∀ d : ClosureDecl, d.check.name = d.name
  | .mk n ps body ec cc ch bvs dcl => by
    by_cases h : ch = true
    · simp [ClosureDecl.check, h, ClosureDecl.name]
    · rcases hcv : StmtList.collectVarUses body dcl bvs with ⟨body', D, U⟩
      simp [ClosureDecl.check, h, hcv, ClosureDecl.name]

mutual

/-- The collector only adds to the use set: whatever is in the incoming
accumulator is in the outgoing one. -/
lemma collect_uses_mono_expr :
    ∀ (e : Expr) (ds us : List String) (x : String),
      x ∈ us → x ∈ (Expr.collectVarUses e ds us).2.2
  | .mk cache core, ds, us, x, hx => by
    rcases hcv : ExprCore.collectVarUses core ds us with ⟨core', D, U⟩
    simp only [Expr.collectVarUses, hcv]
    have h := collect_uses_mono_core core ds us x hx
    rw [hcv] at h
    exact h

lemma collect_uses_mono_core :
    ∀ (e : ExprCore) (ds us : List String) (x : String),
      x ∈ us → x ∈ (ExprCore.collectVarUses e ds us).2.2
  | .number _, _, us, x, hx => hx
  | .stringLiteral _, _, us, x, hx => hx
  | .varRef n, ds, us, x, hx => by
    simp only [ExprCore.collectVarUses]
    exact (setInsert_mem us n x).2 (Or.inr hx)
  | .binOp k l r, ds, us, x, hx => by
    rcases hcl : Expr.collectVarUses l ds us with ⟨l', ds₁, us₁⟩
    rcases hcr : Expr.collectVarUses r ds₁ us₁ with ⟨r', ds₂, us₂⟩
    simp only [ExprCore.collectVarUses, hcl, hcr]
    have h1 := collect_uses_mono_expr l ds us x hx
    rw [hcl] at h1
    have h2 := collect_uses_mono_expr r ds₁ us₁ x h1
    rw [hcr] at h2
    exact h2
  | .call callee m args, ds, us, x, hx => by
    rcases hcl : Expr.collectVarUses callee ds us with ⟨callee', ds₁, us₁⟩
    rcases hca : ExprList.collectVarUses args ds₁ us₁ with ⟨args', ds₂, us₂⟩
    simp only [ExprCore.collectVarUses, hcl, hca]
    have h1 := collect_uses_mono_expr callee ds us x hx
    rw [hcl] at h1
    have h2 := collect_uses_mono_args args ds₁ us₁ x h1
    rw [hca] at h2
    exact h2
  | .closureDecl d, ds, us, x, hx => by
    simp only [ExprCore.collectVarUses]
    exact (setInsertAll_mem _ us x).2 (Or.inl hx)

lemma collect_uses_mono_args :
    ∀ (l : ExprList) (ds us : List String) (x : String),
      x ∈ us → x ∈ (ExprList.collectVarUses l ds us).2.2
  | .nil, _, us, x, hx => hx
  | .cons e rest, ds, us, x, hx => by
    rcases hce : Expr.collectVarUses e ds us with ⟨e', ds₁, us₁⟩
    rcases hcr : ExprList.collectVarUses rest ds₁ us₁ with ⟨rest', ds₂, us₂⟩
    simp only [ExprList.collectVarUses, hce, hcr]
    have h1 := collect_uses_mono_expr e ds us x hx
    rw [hce] at h1
    have h2 := collect_uses_mono_args rest ds₁ us₁ x h1
    rw [hcr] at h2
    exact h2

lemma collect_uses_mono_stmt :
    ∀ (s : Statement) (ds us : List String) (x : String),
      x ∈ us → x ∈ (Statement.collectVarUses s ds us).2.2
  | .expression e, ds, us, x, hx => by
    rcases hce : Expr.collectVarUses e ds us with ⟨e', ds₁, us₁⟩
    simp only [Statement.collectVarUses, hce]
    have h1 := collect_uses_mono_expr e ds us x hx
    rw [hce] at h1
    exact h1
  | .declInit n init, _, us, x, hx => hx
  | .declNoInit n, _, us, x, hx => hx
  | .assignment target e, ds, us, x, hx => by
    rcases hce : Expr.collectVarUses e ds (setInsert us target) with ⟨e', ds₁, us₁⟩
    simp only [Statement.collectVarUses, hce]
    have h1 := collect_uses_mono_expr e ds (setInsert us target) x
      ((setInsert_mem us target x).2 (Or.inr hx))
    rw [hce] at h1
    exact h1
  | .ifStatement cond body, ds, us, x, hx => by
    rcases hcc : Expr.collectVarUses cond ds us with ⟨cond', ds₁, us₁⟩
    rcases hcb : StmtList.collectVarUses body ds₁ us₁ with ⟨body', ds₂, us₂⟩
    simp only [Statement.collectVarUses, hcc, hcb]
    have h1 := collect_uses_mono_expr cond ds us x hx
    rw [hcc] at h1
    have h2 := collect_uses_mono_block body ds₁ us₁ x h1
    rw [hcb] at h2
    exact h2
  | .whileLoop cond body, ds, us, x, hx => by
    rcases hcc : Expr.collectVarUses cond ds us with ⟨cond', ds₁, us₁⟩
    rcases hcb : StmtList.collectVarUses body ds₁ us₁ with ⟨body', ds₂, us₂⟩
    simp only [Statement.collectVarUses, hcc, hcb]
    have h1 := collect_uses_mono_expr cond ds us x hx
    rw [hcc] at h1
    have h2 := collect_uses_mono_block body ds₁ us₁ x h1
    rw [hcb] at h2
    exact h2
  | .returnStmt e, ds, us, x, hx => by
    rcases hce : Expr.collectVarUses e ds us with ⟨e', ds₁, us₁⟩
    simp only [Statement.collectVarUses, hce]
    have h1 := collect_uses_mono_expr e ds us x hx
    rw [hce] at h1
    exact h1

lemma collect_uses_mono_block :
    ∀ (l : StmtList) (ds us : List String) (x : String),
      x ∈ us → x ∈ (StmtList.collectVarUses l ds us).2.2
  | .nil, _, us, x, hx => hx
  | .cons s rest, ds, us, x, hx => by
    rcases hcs : Statement.collectVarUses s ds us with ⟨s', ds₁, us₁⟩
    rcases hcr : StmtList.collectVarUses rest ds₁ us₁ with ⟨rest', ds₂, us₂⟩
    simp only [StmtList.collectVarUses, hcs, hcr]
    have h1 := collect_uses_mono_stmt s ds us x hx
    rw [hcs] at h1
    have h2 := collect_uses_mono_block rest ds₁ us₁ x h1
    rw [hcr] at h2
    exact h2

end

mutual

/-- The collector's outgoing declaration set is exactly the incoming
accumulator plus the syntactically declared names of the node. -/
lemma collect_decls_spec_expr :
    ∀ (e : Expr) (ds us : List String) (x : String),
      x ∈ (Expr.collectVarUses e ds us).2.1 ↔ x ∈ ds ∨ x ∈ Expr.declaredNames e
  | .mk cache core, ds, us, x => by
    rcases hcv : ExprCore.collectVarUses core ds us with ⟨core', D, U⟩
    simp only [Expr.collectVarUses, hcv, Expr.declaredNames]
    have h := collect_decls_spec_core core ds us x
    rw [hcv] at h
    exact h

lemma collect_decls_spec_core :
    ∀ (e : ExprCore) (ds us : List String) (x : String),
      x ∈ (ExprCore.collectVarUses e ds us).2.1 ↔ x ∈ ds ∨ x ∈ ExprCore.declaredNames e
  | .number v, ds, us, x => by
    simp [ExprCore.collectVarUses, ExprCore.declaredNames]
  | .stringLiteral s, ds, us, x => by
    simp [ExprCore.collectVarUses, ExprCore.declaredNames]
  | .varRef n, ds, us, x => by
    simp [ExprCore.collectVarUses, ExprCore.declaredNames]
  | .binOp k l r, ds, us, x => by
    rcases hcl : Expr.collectVarUses l ds us with ⟨l', ds₁, us₁⟩
    rcases hcr : Expr.collectVarUses r ds₁ us₁ with ⟨r', ds₂, us₂⟩
    simp only [ExprCore.collectVarUses, hcl, hcr, ExprCore.declaredNames]
    have h1 := collect_decls_spec_expr l ds us x
    rw [hcl] at h1
    have h2 := collect_decls_spec_expr r ds₁ us₁ x
    rw [hcr] at h2
    simp only at h1 h2
    rw [h2, h1]
    simp only [List.mem_append]
    tauto
  | .call callee m args, ds, us, x => by
    rcases hcl : Expr.collectVarUses callee ds us with ⟨callee', ds₁, us₁⟩
    rcases hca : ExprList.collectVarUses args ds₁ us₁ with ⟨args', ds₂, us₂⟩
    simp only [ExprCore.collectVarUses, hcl, hca, ExprCore.declaredNames]
    have h1 := collect_decls_spec_expr callee ds us x
    rw [hcl] at h1
    have h2 := collect_decls_spec_args args ds₁ us₁ x
    rw [hca] at h2
    simp only at h1 h2
    rw [h2, h1]
    simp only [List.mem_append]
    tauto
  | .closureDecl (.mk n ps body ec cc ch bvs dcl), ds, us, x => by
    simp only [ExprCore.collectVarUses, ExprCore.declaredNames]
    rw [setInsert_mem, ClosureDecl.check_name]
    simp only [ClosureDecl.name, List.mem_singleton]
    tauto

lemma collect_decls_spec_args :
    ∀ (l : ExprList) (ds us : List String) (x : String),
      x ∈ (ExprList.collectVarUses l ds us).2.1 ↔ x ∈ ds ∨ x ∈ ExprList.declaredNames l
  | .nil, ds, us, x => by
    simp [ExprList.collectVarUses, ExprList.declaredNames]
  | .cons e rest, ds, us, x => by
    rcases hce : Expr.collectVarUses e ds us with ⟨e', ds₁, us₁⟩
    rcases hcr : ExprList.collectVarUses rest ds₁ us₁ with ⟨rest', ds₂, us₂⟩
    simp only [ExprList.collectVarUses, hce, hcr, ExprList.declaredNames]
    have h1 := collect_decls_spec_expr e ds us x
    rw [hce] at h1
    have h2 := collect_decls_spec_args rest ds₁ us₁ x
    rw [hcr] at h2
    simp only at h1 h2
    rw [h2, h1]
    simp only [List.mem_append]
    tauto

lemma collect_decls_spec_stmt :
    ∀ (s : Statement) (ds us : List String) (x : String),
      x ∈ (Statement.collectVarUses s ds us).2.1 ↔ x ∈ ds ∨ x ∈ Statement.declaredNames s
  | .expression e, ds, us, x => by
    rcases hce : Expr.collectVarUses e ds us with ⟨e', ds₁, us₁⟩
    simp only [Statement.collectVarUses, hce, Statement.declaredNames]
    have h1 := collect_decls_spec_expr e ds us x
    rw [hce] at h1
    exact h1
  | .declInit n init, ds, us, x => by
    simp only [Statement.collectVarUses, Statement.declaredNames]
    rw [setInsert_mem]
    simp only [List.mem_singleton]
    tauto
  | .declNoInit n, ds, us, x => by
    simp only [Statement.collectVarUses, Statement.declaredNames]
    rw [setInsert_mem]
    simp only [List.mem_singleton]
    tauto
  | .assignment target e, ds, us, x => by
    rcases hce : Expr.collectVarUses e ds (setInsert us target) with ⟨e', ds₁, us₁⟩
    simp only [Statement.collectVarUses, hce, Statement.declaredNames]
    have h1 := collect_decls_spec_expr e ds (setInsert us target) x
    rw [hce] at h1
    exact h1
  | .ifStatement cond body, ds, us, x => by
    rcases hcc : Expr.collectVarUses cond ds us with ⟨cond', ds₁, us₁⟩
    rcases hcb : StmtList.collectVarUses body ds₁ us₁ with ⟨body', ds₂, us₂⟩
    simp only [Statement.collectVarUses, hcc, hcb, Statement.declaredNames]
    have h1 := collect_decls_spec_expr cond ds us x
    rw [hcc] at h1
    have h2 := collect_decls_spec_block body ds₁ us₁ x
    rw [hcb] at h2
    simp only at h1 h2
    rw [h2, h1]
    simp only [List.mem_append]
    tauto
  | .whileLoop cond body, ds, us, x => by
    rcases hcc : Expr.collectVarUses cond ds us with ⟨cond', ds₁, us₁⟩
    rcases hcb : StmtList.collectVarUses body ds₁ us₁ with ⟨body', ds₂, us₂⟩
    simp only [Statement.collectVarUses, hcc, hcb, Statement.declaredNames]
    have h1 := collect_decls_spec_expr cond ds us x
    rw [hcc] at h1
    have h2 := collect_decls_spec_block body ds₁ us₁ x
    rw [hcb] at h2
    simp only at h1 h2
    rw [h2, h1]
    simp only [List.mem_append]
    tauto
  | .returnStmt e, ds, us, x => by
    rcases hce : Expr.collectVarUses e ds us with ⟨e', ds₁, us₁⟩
    simp only [Statement.collectVarUses, hce, Statement.declaredNames]
    have h1 := collect_decls_spec_expr e ds us x
    rw [hce] at h1
    exact h1

lemma collect_decls_spec_block :
    ∀ (l : StmtList) (ds us : List String) (x : String),
      x ∈ (StmtList.collectVarUses l ds us).2.1 ↔ x ∈ ds ∨ x ∈ StmtList.declaredNames l
  | .nil, ds, us, x => by
    simp [StmtList.collectVarUses, StmtList.declaredNames]
  | .cons s rest, ds, us, x => by
    rcases hcs : Statement.collectVarUses s ds us with ⟨s', ds₁, us₁⟩
    rcases hcr : StmtList.collectVarUses rest ds₁ us₁ with ⟨rest', ds₂, us₂⟩
    simp only [StmtList.collectVarUses, hcs, hcr, StmtList.declaredNames]
    have h1 := collect_decls_spec_stmt s ds us x
    rw [hcs] at h1
    have h2 := collect_decls_spec_block rest ds₁ us₁ x
    rw [hcr] at h2
    simp only at h1 h2
    rw [h2, h1]
    simp only [List.mem_append]
    tauto

end

mutual

/-- On a parser-fresh tree, every name referenced outside declaration
initialisers ends up in the collector's use set. -/
lemma collect_refs_sound_expr :
    ∀ (e : Expr) (ds us : List String) (x : String),
      Expr.analysisFresh e = true →
      x ∈ Expr.refNames false e →
      x ∈ (Expr.collectVarUses e ds us).2.2
  | .mk cache core, ds, us, x, hf, href => by
    rcases hcv : ExprCore.collectVarUses core ds us with ⟨core', D, U⟩
    simp only [Expr.collectVarUses, hcv]
    have h := collect_refs_sound_core core ds us x hf href
    rw [hcv] at h
    exact h

lemma collect_refs_sound_core :
    ∀ (e : ExprCore) (ds us : List String) (x : String),
      ExprCore.analysisFresh e = true →
      x ∈ ExprCore.refNames false e →
      x ∈ (ExprCore.collectVarUses e ds us).2.2
  | .number v, ds, us, x, hf, href => by
    simp [ExprCore.refNames] at href
  | .stringLiteral s, ds, us, x, hf, href => by
    simp [ExprCore.refNames] at href
  | .varRef n, ds, us, x, hf, href => by
    simp only [ExprCore.refNames, List.mem_singleton] at href
    simp only [ExprCore.collectVarUses]
    exact (setInsert_mem us n x).2 (Or.inl href)
  | .binOp k l r, ds, us, x, hf, href => by
    simp only [ExprCore.analysisFresh, Bool.and_eq_true] at hf
    simp only [ExprCore.refNames, List.mem_append] at href
    rcases hcl : Expr.collectVarUses l ds us with ⟨l', ds₁, us₁⟩
    rcases hcr : Expr.collectVarUses r ds₁ us₁ with ⟨r', ds₂, us₂⟩
    simp only [ExprCore.collectVarUses, hcl, hcr]
    rcases href with h | h
    · have h1 := collect_refs_sound_expr l ds us x hf.1 h
      rw [hcl] at h1
      have h2 := collect_uses_mono_expr r ds₁ us₁ x h1
      rw [hcr] at h2
      exact h2
    · have h2 := collect_refs_sound_expr r ds₁ us₁ x hf.2 h
      rw [hcr] at h2
      exact h2
  | .call callee m args, ds, us, x, hf, href => by
    simp only [ExprCore.analysisFresh, Bool.and_eq_true] at hf
    simp only [ExprCore.refNames, List.mem_append] at href
    rcases hcl : Expr.collectVarUses callee ds us with ⟨callee', ds₁, us₁⟩
    rcases hca : ExprList.collectVarUses args ds₁ us₁ with ⟨args', ds₂, us₂⟩
    simp only [ExprCore.collectVarUses, hcl, hca]
    rcases href with h | h
    · have h1 := collect_refs_sound_expr callee ds us x hf.1 h
      rw [hcl] at h1
      have h2 := collect_uses_mono_args args ds₁ us₁ x h1
      rw [hca] at h2
      exact h2
    · have h2 := collect_refs_sound_args args ds₁ us₁ x hf.2 h
      rw [hca] at h2
      exact h2
  | .closureDecl (.mk n ps body ec cc ch bvs dcl), ds, us, x, hf, href => by
    simp only [ExprCore.analysisFresh, Bool.and_eq_true, Bool.not_eq_true',
      List.isEmpty_iff] at hf
    obtain ⟨⟨⟨hch, hbvs⟩, hdcl⟩, hfb⟩ := hf
    subst hch; subst hbvs; subst hdcl
    simp only [ExprCore.refNames, List.mem_filter, Bool.and_eq_true,
      Bool.not_eq_true'] at href
    obtain ⟨hrefb, hps, hdecl⟩ := href
    have hps' : x ∉ ps := by simpa using hps
    have hdecl' : x ∉ StmtList.declaredNames body := by simpa using hdecl
    rcases hcv : StmtList.collectVarUses body [] [] with ⟨body', D, U⟩
    simp only [ExprCore.collectVarUses]
    refine (setInsertAll_mem _ us x).2 (Or.inr ?_)
    simp only [ClosureDecl.check, Bool.false_eq_true, if_false, hcv,
      ClosureDecl.boundVars]
    rw [foldl_setErase_mem, foldl_setErase_mem]
    refine ⟨⟨?_, hps'⟩, ?_⟩
    · have h1 := collect_refs_sound_block body [] [] x hfb hrefb
      rw [hcv] at h1
      exact h1
    · intro hxD
      have h2 := collect_decls_spec_block body [] [] x
      rw [hcv] at h2
      simp only at h2
      rcases h2.1 hxD with h | h
      · simp at h
      · exact hdecl' h

lemma collect_refs_sound_args :
    ∀ (l : ExprList) (ds us : List String) (x : String),
      ExprList.analysisFresh l = true →
      x ∈ ExprList.refNames false l →
      x ∈ (ExprList.collectVarUses l ds us).2.2
  | .nil, ds, us, x, hf, href => by
    simp [ExprList.refNames] at href
  | .cons e rest, ds, us, x, hf, href => by
    simp only [ExprList.analysisFresh, Bool.and_eq_true] at hf
    simp only [ExprList.refNames, List.mem_append] at href
    rcases hce : Expr.collectVarUses e ds us with ⟨e', ds₁, us₁⟩
    rcases hcr : ExprList.collectVarUses rest ds₁ us₁ with ⟨rest', ds₂, us₂⟩
    simp only [ExprList.collectVarUses, hce, hcr]
    rcases href with h | h
    · have h1 := collect_refs_sound_expr e ds us x hf.1 h
      rw [hce] at h1
      have h2 := collect_uses_mono_args rest ds₁ us₁ x h1
      rw [hcr] at h2
      exact h2
    · have h2 := collect_refs_sound_args rest ds₁ us₁ x hf.2 h
      rw [hcr] at h2
      exact h2

lemma collect_refs_sound_stmt :
    ∀ (s : Statement) (ds us : List String) (x : String),
      Statement.analysisFresh s = true →
      x ∈ Statement.refNames false s →
      x ∈ (Statement.collectVarUses s ds us).2.2
  | .expression e, ds, us, x, hf, href => by
    rcases hce : Expr.collectVarUses e ds us with ⟨e', ds₁, us₁⟩
    simp only [Statement.collectVarUses, hce]
    have h1 := collect_refs_sound_expr e ds us x hf href
    rw [hce] at h1
    exact h1
  | .declInit n init, ds, us, x, hf, href => by
    simp [Statement.refNames] at href
  | .declNoInit n, ds, us, x, hf, href => by
    simp [Statement.refNames] at href
  | .assignment target e, ds, us, x, hf, href => by
    simp only [Statement.refNames, List.mem_cons] at href
    rcases hce : Expr.collectVarUses e ds (setInsert us target) with ⟨e', ds₁, us₁⟩
    simp only [Statement.collectVarUses, hce]
    rcases href with h | h
    · have h1 := collect_uses_mono_expr e ds (setInsert us target) x
        ((setInsert_mem us target x).2 (Or.inl h))
      rw [hce] at h1
      exact h1
    · have h1 := collect_refs_sound_expr e ds (setInsert us target) x hf h
      rw [hce] at h1
      exact h1
  | .ifStatement cond body, ds, us, x, hf, href => by
    simp only [Statement.analysisFresh, Bool.and_eq_true] at hf
    simp only [Statement.refNames, List.mem_append] at href
    rcases hcc : Expr.collectVarUses cond ds us with ⟨cond', ds₁, us₁⟩
    rcases hcb : StmtList.collectVarUses body ds₁ us₁ with ⟨body', ds₂, us₂⟩
    simp only [Statement.collectVarUses, hcc, hcb]
    rcases href with h | h
    · have h1 := collect_refs_sound_expr cond ds us x hf.1 h
      rw [hcc] at h1
      have h2 := collect_uses_mono_block body ds₁ us₁ x h1
      rw [hcb] at h2
      exact h2
    · have h2 := collect_refs_sound_block body ds₁ us₁ x hf.2 h
      rw [hcb] at h2
      exact h2
  | .whileLoop cond body, ds, us, x, hf, href => by
    simp only [Statement.analysisFresh, Bool.and_eq_true] at hf
    simp only [Statement.refNames, List.mem_append] at href
    rcases hcc : Expr.collectVarUses cond ds us with ⟨cond', ds₁, us₁⟩
    rcases hcb : StmtList.collectVarUses body ds₁ us₁ with ⟨body', ds₂, us₂⟩
    simp only [Statement.collectVarUses, hcc, hcb]
    rcases href with h | h
    · have h1 := collect_refs_sound_expr cond ds us x hf.1 h
      rw [hcc] at h1
      have h2 := collect_uses_mono_block body ds₁ us₁ x h1
      rw [hcb] at h2
      exact h2
    · have h2 := collect_refs_sound_block body ds₁ us₁ x hf.2 h
      rw [hcb] at h2
      exact h2
  | .returnStmt e, ds, us, x, hf, href => by
    rcases hce : Expr.collectVarUses e ds us with ⟨e', ds₁, us₁⟩
    simp only [Statement.collectVarUses, hce]
    have h1 := collect_refs_sound_expr e ds us x hf href
    rw [hce] at h1
    exact h1

lemma collect_refs_sound_block :
    ∀ (l : StmtList) (ds us : List String) (x : String),
      StmtList.analysisFresh l = true →
      x ∈ StmtList.refNames false l →
      x ∈ (StmtList.collectVarUses l ds us).2.2
  | .nil, ds, us, x, hf, href => by
    simp [StmtList.refNames] at href
  | .cons s rest, ds, us, x, hf, href => by
    simp only [StmtList.analysisFresh, Bool.and_eq_true] at hf
    simp only [StmtList.refNames, List.mem_append] at href
    rcases hcs : Statement.collectVarUses s ds us with ⟨s', ds₁, us₁⟩
    rcases hcr : StmtList.collectVarUses rest ds₁ us₁ with ⟨rest', ds₂, us₂⟩
    simp only [StmtList.collectVarUses, hcs, hcr]
    rcases href with h | h
    · have h1 := collect_refs_sound_stmt s ds us x hf.1 h
      rw [hcs] at h1
      have h2 := collect_uses_mono_block rest ds₁ us₁ x h1
      rw [hcr] at h2
      exact h2
    · have h2 := collect_refs_sound_block rest ds₁ us₁ x hf.2 h
      rw [hcr] at h2
      exact h2

end

/-- Claim C5 (amended): for a parser-fresh closure declaration, `check`
sets `boundVars` to the collector's use set minus the parameter names
minus the collected declaration names, the collected declarations being
exactly the syntactically declared names of the body; hence no name is in
both `boundVars` and decls ∪ parameters.  Every free variable referenced
in the body *outside a declaration initialiser* is in `boundVars`
(initialiser expressions are skipped by `Decl::collectVarUses`, so a free
reference there is not captured — see the counterexample).  The analysis
is memoised: `check` marks the node checked, is idempotent, and is the
identity on already-checked nodes. -/
theorem claim_C5_capture_analysis :
    ∀ (d : ClosureDecl) (nm : String) (params : List String) (body : StmtList)
      (ec : Nat) (cc : Option Unit),
      d = ClosureDecl.mk nm params body ec cc false [] [] →
      StmtList.analysisFresh body = true →
      (∀ x, x ∈ d.check.boundVars ↔
        x ∈ (StmtList.collectVarUses body [] []).2.2 ∧ x ∉ params ∧
        x ∉ (StmtList.collectVarUses body [] []).2.1) ∧
      (∀ x, x ∈ d.check.decls ↔ x ∈ StmtList.declaredNames body) ∧
      (∀ x, x ∈ d.check.boundVars → x ∉ params ∧ x ∉ d.check.decls) ∧
      (∀ x, x ∈ StmtList.refNames false body →
        x ∉ StmtList.declaredNames body → x ∉ params →
        x ∈ d.check.boundVars) ∧
      d.check.checked = true ∧ d.check.check = d.check ∧
      (∀ d' : ClosureDecl, d'.checked = true → d'.check = d') := by
  intro d nm params body ec cc hd hfresh
  subst hd
  rcases hcv : StmtList.collectVarUses body [] [] with ⟨body', D, U⟩
  have hcheck : (ClosureDecl.mk nm params body ec cc false [] []).check =
      .mk nm params body' ec cc true (D.foldl setErase (params.foldl setErase U)) D := by
    simp [ClosureDecl.check, hcv]
  have hmem : ∀ x,
      x ∈ (ClosureDecl.mk nm params body ec cc false [] []).check.boundVars ↔
      x ∈ U ∧ x ∉ params ∧ x ∉ D := by
    intro x
    rw [hcheck]
    simp only [ClosureDecl.boundVars]
    rw [foldl_setErase_mem, foldl_setErase_mem]
    tauto
  have hdeclsD : ∀ x, x ∈ D ↔ x ∈ StmtList.declaredNames body := by
    intro x
    have h := collect_decls_spec_block body [] [] x
    rw [hcv] at h
    simpa using h
  refine ⟨?_, ?_, ?_, ?_, ?_, ?_, ?_⟩
  · intro x
    simp only [hcv]
    exact hmem x
  · intro x
    rw [hcheck]
    simp only [ClosureDecl.decls]
    exact hdeclsD x
  · intro x hx
    rcases (hmem x).1 hx with ⟨hu, hp, hD⟩
    refine ⟨hp, ?_⟩
    rw [hcheck]
    simp only [ClosureDecl.decls]
    exact hD
  · intro x hr hnd hnp
    refine (hmem x).2 ⟨?_, hnp, ?_⟩
    · have h1 := collect_refs_sound_block body [] [] x hfresh hr
      rw [hcv] at h1
      exact h1
    · intro hxD
      exact hnd ((hdeclsD x).1 hxD)
  · rw [hcheck]
    rfl
  · rw [hcheck]
    simp [ClosureDecl.check]
  · intro d' hch
    cases d' with
    | mk n ps b e₀ c₀ ch bvs dcl =>
      simp only [ClosureDecl.checked] at hch
      simp [ClosureDecl.check, hch]

/-- Claim C5 counterexample: in `fun f() { var y = x; }` the body freely
references `x` (inside the declaration initialiser; `x` is neither
declared nor a parameter), yet after `check` the closure's `boundVars` is
empty: the free reference in the initialiser is not captured, because
`Decl::collectVarUses` records only the declared name and never visits
the initialiser expression. -/
theorem claim_C5_counterexample :
    "x" ∈ StmtList.refNames true
      (StmtList.cons (.declInit "y" (.mk 0 (.varRef "x"))) .nil) ∧
    "x" ∉ StmtList.declaredNames
      (StmtList.cons (.declInit "y" (.mk 0 (.varRef "x"))) .nil) ∧
    (ClosureDecl.check (.mk "f" []
      (.cons (.declInit "y" (.mk 0 (.varRef "x"))) .nil)
      0 none false [] [])).boundVars = [] ∧
    (ClosureDecl.check (.mk "f" []
      (.cons (.declInit "y" (.mk 0 (.varRef "x"))) .nil)
      0 none false [] [])).decls = ["y"] := by decide

/-- Witness for C5: the amended theorem applied to the fresh closure
`fun f(p) { return x; }`, whose free body reference `x` is captured. -/
theorem claim_C5_witness :
    "x" ∈ (ClosureDecl.check (.mk "f" ["p"]
      (.cons (.returnStmt (.mk 0 (.varRef "x"))) .nil)
      0 none false [] [])).boundVars :=
  (claim_C5_capture_analysis
    (.mk "f" ["p"] (.cons (.returnStmt (.mk 0 (.varRef "x"))) .nil) 0 none false [] [])
    "f" ["p"] (.cons (.returnStmt (.mk 0 (.varRef "x"))) .nil) 0 none rfl
    (by decide)).2.2.2.1 "x" (by decide) (by decide) (by decide)
